import Mathlib

/-!
Verification of the convolutional sparse coder specified for the
step-detection workshop repository.

The repository ships the notebook `step-detection-workshop.ipynb`, which
calls the coder (`ConvSparseCoder` from `convsparsecoder`) but does not
contain its implementation; following the specification, the coder's
components (convolution operator, proximal operator, step-size estimator,
FISTA solver and facade) are modelled here from the spec's words.  The
notebook-level utility `get_signal` and the toy-example signal construction
are embedded from the notebook source itself.

Signals are lists of field elements; code tensors are lists of code rows
(one row per atom).  Out-of-range entries read as `0` via `List.getD`,
matching the zero-padding conventions of the numeric code.  The pure
components are stated over an arbitrary linear ordered field so they stay
computable; the solver itself instantiates them at `ℝ` (its extrapolation
coefficients involve a square root).
-/

namespace CSC

variable {α : Type} [LinearOrderedField α]

/-- Entry `i` of a list, `0` out of range. -/
def eL (a : List α) (i : ℕ) : α := a.getD i 0

/-- Entry `(k, i)` of a code tensor, `0` out of range. -/
def eT (z : List (List α)) (k i : ℕ) : α := eL (z.getD k []) i

/-- Modelled from the spec (§4.1, forward): entry `t` of the full
convolution of code row `z` with atom `d`:  `∑ z_j · d_(t-j)`. -/
def convAt (z d : List α) (t : ℕ) : α :=
  ∑ j ∈ Finset.range (t + 1), eL z j * eL d (t - j)

/-- Modelled from the spec (§4.1): `forward(codes, atoms)` — for each atom
`k`, convolve code row `k` with atom `k` in full mode, crop to the signal
length `T`, and sum across atoms. -/
def forward (T : ℕ) (codes atoms : List (List α)) : List α :=
  (List.range T).map fun t =>
    ∑ k ∈ Finset.range atoms.length, convAt (codes.getD k []) (atoms.getD k []) t

/-- Modelled from the spec (§4.1, adjoint): entry `j` of the valid
cross-correlation of residual `r` with atom `d`. -/
def corrAt (r d : List α) (j : ℕ) : α :=
  ∑ i ∈ Finset.range d.length, eL r (j + i) * eL d i

/-- Modelled from the spec (§4.1): `adjoint(residual, atoms)` — for each
atom, cross-correlate the residual with the atom, producing a row of
length `T − L + 1`. -/
def adjoint (r : List α) (atoms : List (List α)) : List (List α) :=
  atoms.map fun d => (List.range (r.length - d.length + 1)).map (corrAt r d)

/-- Sign of a field element (`numpy.sign` convention). -/
def signR (x : α) : α := if 0 < x then 1 else if x < 0 then -1 else 0

/-- Modelled from the spec (§4.2): scalar soft-thresholding —
`sign(x)·max(|x|−τ, 0)` two-sided, `max(x−τ, 0)` when `positive`. -/
def softScalar (x τ : α) (positive : Bool) : α :=
  if positive then max (x - τ) 0 else signR x * max (|x| - τ) 0

/-- Modelled from the spec (§4.2): `prox(candidate, threshold, positive)`,
applied element-wise over the full code tensor. -/
def prox (cand : List (List α)) (τ : α) (positive : Bool) : List (List α) :=
  cand.map fun row => row.map fun x => softScalar x τ positive

/-- Inner product of two lists (summed over the first list's support). -/
def dotL (a b : List α) : α := ∑ i ∈ Finset.range a.length, eL a i * eL b i

/-- Inner product of two code tensors. -/
def dotT (z w : List (List α)) : α :=
  ∑ k ∈ Finset.range z.length, dotL (z.getD k []) (w.getD k [])

/-- Squared Euclidean norm of a list. -/
def sqNormL (a : List α) : α := dotL a a

/-- L1 norm of a list. -/
def norm1L (a : List α) : α := ∑ i ∈ Finset.range a.length, |eL a i|

/-- L1 norm of a code tensor. -/
def norm1T (z : List (List α)) : α :=
  ∑ k ∈ Finset.range z.length, norm1L (z.getD k [])

/-- Element-wise difference of two equal-length lists. -/
def vSub (a b : List α) : List α := List.zipWith (· - ·) a b

/-- Element-wise sum of two code tensors. -/
def tAdd (z w : List (List α)) : List (List α) :=
  List.zipWith (List.zipWith (· + ·)) z w

/-- Element-wise difference of two code tensors. -/
def tSub (z w : List (List α)) : List (List α) :=
  List.zipWith (List.zipWith (· - ·)) z w

/-- Scalar multiple of a code tensor. -/
def tSmul (a : α) (z : List (List α)) : List (List α) :=
  z.map fun row => row.map fun x => a * x

/-- Modelled from the spec (§4.3): `lipschitz_estimate(atoms)` — a
closed-form upper bound on the Lipschitz constant of the squared-error
gradient, from the atoms' energy: the square of the summed L1 norms. -/
def lipschitz_estimate (atoms : List (List α)) : α :=
  (∑ k ∈ Finset.range atoms.length, norm1L (atoms.getD k [])) ^ 2

/-- Modelled from the spec (§4.4, stopping rule): the objective value
`½‖signal − forward(z)‖² + penalty·‖z‖₁`. -/
def objective (signal : List α) (atoms : List (List α)) (penalty : α)
    (z : List (List α)) : α :=
  sqNormL (vSub signal (forward signal.length z atoms)) / 2 + penalty * norm1T z

/-- The all-zero code tensor of shape `K × W`. -/
def zeroCodes (K W : ℕ) : List (List α) := List.replicate K (List.replicate W 0)

/-! ### Basic entry and length lemmas -/

theorem eL_nil (i : ℕ) : eL ([] : List α) i = 0 := by
  cases i <;> rfl

theorem eL_replicate_zero (W i : ℕ) : eL (List.replicate W (0 : α)) i = 0 := by
  unfold eL
  rcases lt_or_le i W with h | h
  · rw [List.getD_eq_getElem _ _ (by simpa using h)]
    simp
  · rw [List.getD_eq_default _ _ (by simpa using h)]

theorem eL_of_ge (a : List α) (i : ℕ) (h : a.length ≤ i) : eL a i = 0 :=
  List.getD_eq_default _ _ h

theorem length_forward (T : ℕ) (codes atoms : List (List α)) :
    (forward T codes atoms).length = T := by
  simp [forward]

theorem eL_forward (T : ℕ) (codes atoms : List (List α)) (t : ℕ) (ht : t < T) :
    eL (forward T codes atoms) t =
      ∑ k ∈ Finset.range atoms.length, convAt (codes.getD k []) (atoms.getD k []) t := by
  unfold eL forward
  rw [List.getD_eq_getElem _ _ (by simpa using ht)]
  simp

theorem length_adjoint (r : List α) (atoms : List (List α)) :
    (adjoint r atoms).length = atoms.length := by
  simp [adjoint]

theorem adjoint_row (r : List α) (atoms : List (List α)) (k : ℕ)
    (hk : k < atoms.length) :
    (adjoint r atoms).getD k [] =
      (List.range (r.length - (atoms.getD k []).length + 1)).map
        (corrAt r (atoms.getD k [])) := by
  unfold adjoint
  rw [List.getD_eq_getElem _ _ (by simpa using hk)]
  rw [List.getElem_map]
  rw [List.getD_eq_getElem _ _ hk]

theorem length_adjoint_row (r : List α) (atoms : List (List α)) (k : ℕ)
    (hk : k < atoms.length) :
    ((adjoint r atoms).getD k []).length = r.length - (atoms.getD k []).length + 1 := by
  rw [adjoint_row r atoms k hk]
  simp

theorem eL_adjoint (r : List α) (atoms : List (List α)) (k j : ℕ)
    (hk : k < atoms.length) (hj : j < r.length - (atoms.getD k []).length + 1) :
    eT (adjoint r atoms) k j = corrAt r (atoms.getD k []) j := by
  unfold eT
  rw [adjoint_row r atoms k hk]
  unfold eL
  rw [List.getD_eq_getElem _ _ (by simpa using hj)]
  simp

end CSC

/-! ### Sum exchange for convolutions -/

namespace CSC

variable {α : Type} [LinearOrderedField α]

theorem range_succ_eq_filter (t T : ℕ) (ht : t < T) :
    Finset.range (t + 1) = (Finset.range T).filter (fun j => j ≤ t) := by
  ext x
  simp only [Finset.mem_range, Finset.mem_filter]
  omega

/-- Exchanging a triangular double sum: summing over `t < T` and `j ≤ t`
equals summing over `j < T` and offsets `i < T - j` with `t = j + i`. -/
theorem sum_triangle (T : ℕ) (f : ℕ → ℕ → α) :
    ∑ t ∈ Finset.range T, ∑ j ∈ Finset.range (t + 1), f j t =
      ∑ j ∈ Finset.range T, ∑ i ∈ Finset.range (T - j), f j (j + i) := by
  have h1 : ∑ t ∈ Finset.range T, ∑ j ∈ Finset.range (t + 1), f j t =
      ∑ t ∈ Finset.range T, ∑ j ∈ Finset.range T, if j ≤ t then f j t else 0 := by
    refine Finset.sum_congr rfl fun t ht => ?_
    rw [range_succ_eq_filter t T (Finset.mem_range.mp ht)]
    rw [Finset.sum_filter]
  rw [h1, Finset.sum_comm]
  refine Finset.sum_congr rfl fun j hj => ?_
  have h2 : ∑ t ∈ Finset.range T, (if j ≤ t then f j t else 0) =
      ∑ t ∈ Finset.Ico j T, f j t := by
    rw [← Finset.sum_filter]
    refine Finset.sum_congr ?_ fun x _ => rfl
    ext x
    simp only [Finset.mem_filter, Finset.mem_range, Finset.mem_Ico]
    omega
  rw [h2, Finset.sum_Ico_eq_sum_range]

/-- Per-atom adjoint identity: the inner product of the full convolution
(cropped to length `T`) with a residual equals the inner product of the
code row with the valid cross-correlation. -/
theorem conv_dot (T : ℕ) (z a r : List α)
    (hzlen : z.length = T - a.length + 1)
    (ha1 : 1 ≤ a.length) (haT : a.length ≤ T) (hr : r.length = T) :
    ∑ t ∈ Finset.range T, convAt z a t * eL r t =
      ∑ j ∈ Finset.range z.length, eL z j * corrAt r a j := by
  have h1 : ∑ t ∈ Finset.range T, convAt z a t * eL r t =
      ∑ t ∈ Finset.range T, ∑ j ∈ Finset.range (t + 1),
        eL z j * eL a (t - j) * eL r t := by
    refine Finset.sum_congr rfl fun t _ => ?_
    rw [convAt, Finset.sum_mul]
  rw [h1, sum_triangle]
  have h2 : ∑ j ∈ Finset.range T, ∑ i ∈ Finset.range (T - j),
      eL z j * eL a (j + i - j) * eL r (j + i) =
      ∑ j ∈ Finset.range T, eL z j * ∑ i ∈ Finset.range (T - j),
        eL a i * eL r (j + i) := by
    refine Finset.sum_congr rfl fun j _ => ?_
    rw [Finset.mul_sum]
    refine Finset.sum_congr rfl fun i _ => ?_
    rw [Nat.add_sub_cancel_left]
    ring
  rw [h2]
  have hsub : Finset.range z.length ⊆ Finset.range T := by
    intro x hx
    simp only [Finset.mem_range] at hx ⊢
    omega
  rw [← Finset.sum_subset hsub (by
    intro x _ hx
    simp only [Finset.mem_range, not_lt] at hx
    rw [eL_of_ge z x hx, zero_mul])]
  refine Finset.sum_congr rfl fun j hj => ?_
  have hjlt : j < z.length := Finset.mem_range.mp hj
  have haTj : a.length ≤ T - j := by omega
  congr 1
  rw [corrAt]
  have hsub2 : Finset.range a.length ⊆ Finset.range (T - j) := by
    intro x hx
    simp only [Finset.mem_range] at hx ⊢
    omega
  rw [← Finset.sum_subset hsub2 (by
    intro x _ hx
    simp only [Finset.mem_range, not_lt] at hx
    rw [eL_of_ge a x hx, zero_mul])]
  refine Finset.sum_congr rfl fun i _ => mul_comm _ _

/-- The adjoint identity for the full operators:
`⟨forward(z, atoms), r⟩ = ⟨z, adjoint(r, atoms)⟩`. -/
theorem dot_forward_adjoint (T : ℕ) (z atoms : List (List α)) (r : List α)
    (hz : z.length = atoms.length)
    (hrow : ∀ k, k < atoms.length →
      (z.getD k []).length = T - (atoms.getD k []).length + 1)
    (ha : ∀ k, k < atoms.length →
      1 ≤ (atoms.getD k []).length ∧ (atoms.getD k []).length ≤ T)
    (hr : r.length = T) :
    dotL (forward T z atoms) r = dotT z (adjoint r atoms) := by
  have hL : dotL (forward T z atoms) r =
      ∑ t ∈ Finset.range T,
        (∑ k ∈ Finset.range atoms.length, convAt (z.getD k []) (atoms.getD k []) t)
          * eL r t := by
    rw [dotL, length_forward]
    refine Finset.sum_congr rfl fun t ht => ?_
    rw [eL_forward T z atoms t (Finset.mem_range.mp ht)]
  rw [hL]
  have hswap : ∑ t ∈ Finset.range T,
      (∑ k ∈ Finset.range atoms.length, convAt (z.getD k []) (atoms.getD k []) t)
        * eL r t =
      ∑ k ∈ Finset.range atoms.length, ∑ t ∈ Finset.range T,
        convAt (z.getD k []) (atoms.getD k []) t * eL r t := by
    rw [← Finset.sum_comm]
    refine Finset.sum_congr rfl fun t _ => ?_
    rw [Finset.sum_mul]
  rw [hswap, dotT, hz]
  refine Finset.sum_congr rfl fun k hk => ?_
  have hklt : k < atoms.length := Finset.mem_range.mp hk
  obtain ⟨ha1, haT⟩ := ha k hklt
  rw [conv_dot T (z.getD k []) (atoms.getD k []) r (hrow k hklt) ha1 haT hr]
  rw [dotL]
  refine Finset.sum_congr rfl fun j hj => ?_
  congr 1
  have hjlt : j < (z.getD k []).length := Finset.mem_range.mp hj
  rw [hrow k hklt] at hjlt
  have hj2 : j < r.length - (atoms.getD k []).length + 1 := by
    rw [hr]
    omega
  exact (eL_adjoint r atoms k j hklt hj2).symm

end CSC

/-! ### The FISTA solver and the coder facade (modelled from the spec) -/

namespace CSC

/-- Modelled from the spec (§3, solver state): current code estimate,
momentum-extrapolated estimate, and extrapolation coefficient. -/
structure SolverState : Type where
  z : List (List ℝ)
  y : List (List ℝ)
  t : ℝ

/-- Modelled from the spec (§4.4, steps 1–3): the gradient step
`y + step·adjoint(signal − forward(y))`. -/
noncomputable def gradStep (atoms : List (List ℝ)) (signal : List ℝ) (stepSize : ℝ)
    (y : List (List ℝ)) : List (List ℝ) :=
  tAdd y (tSmul stepSize (adjoint (vSub signal (forward signal.length y atoms)) atoms))

/-- Modelled from the spec (§4.4, step 5): the extrapolation-coefficient
update `t ↦ (1 + sqrt(1 + 4·t²))/2`. -/
noncomputable def tNext (t : ℝ) : ℝ := (1 + Real.sqrt (1 + 4 * t ^ 2)) / 2

/-- Modelled from the spec (§4.4): one FISTA iteration — gradient step,
prox step, extrapolation-coefficient update and momentum extrapolation. -/
noncomputable def fistaStep (atoms : List (List ℝ)) (signal : List ℝ)
    (stepSize penalty : ℝ) (positive : Bool) (s : SolverState) : SolverState :=
  ⟨prox (gradStep atoms signal stepSize s.y) (stepSize * penalty) positive,
   tAdd (prox (gradStep atoms signal stepSize s.y) (stepSize * penalty) positive)
     (tSmul ((s.t - 1) / tNext s.t)
       (tSub (prox (gradStep atoms signal stepSize s.y) (stepSize * penalty) positive)
         s.z)),
   tNext s.t⟩

/-- The solver iterate sequence: `n` FISTA iterations from `init`. -/
noncomputable def fistaSeq (atoms : List (List ℝ)) (signal : List ℝ)
    (stepSize penalty : ℝ) (positive : Bool) (init : SolverState) : ℕ → SolverState
  | 0 => init
  | n + 1 => fistaStep atoms signal stepSize penalty positive
      (fistaSeq atoms signal stepSize penalty positive init n)

/-- Modelled from the spec (§4.4, initialization): `z0` is the zero tensor
(or a caller-supplied warm start), `y0 = z0`, `t0 = 1`. -/
noncomputable def initState (K W : ℕ) (warm : Option (List (List ℝ))) : SolverState :=
  ⟨warm.getD (zeroCodes K W), warm.getD (zeroCodes K W), 1⟩

/-- Modelled from the spec (§4.4, stopping rule): relative change of the
objective value. -/
noncomputable def relChange (fOld fNew : ℝ) : ℝ := |fNew - fOld| / max |fOld| 1

/-- Modelled from the spec (§4.4): the solver loop — iterate `fistaStep`
until the relative objective change falls below the tolerance or the
iteration cap is exhausted. -/
noncomputable def fistaLoop (atoms : List (List ℝ)) (signal : List ℝ)
    (stepSize penalty : ℝ) (positive : Bool) (tol : ℝ) :
    ℕ → SolverState → SolverState
  | 0, s => s
  | n + 1, s =>
    if relChange (objective signal atoms penalty s.z)
        (objective signal atoms penalty
          (fistaStep atoms signal stepSize penalty positive s).z) ≤ tol then
      fistaStep atoms signal stepSize penalty positive s
    else fistaLoop atoms signal stepSize penalty positive tol n
      (fistaStep atoms signal stepSize penalty positive s)

/-- Modelled from the spec (§4.5): the convolutional sparse coder facade —
immutable dictionary and positivity flag, plus the mutable cache for the
codes of the last fit and the fitted signal length. -/
structure ConvSparseCoder : Type where
  atoms : List (List ℝ)
  positive_code : Bool
  sparse_codes : Option (List (List ℝ)) := none
  signal_length : ℕ := 0

/-- Modelled from the spec (§7): the error taxonomy relevant to
`fit`/`predict`. -/
inductive FitError : Type where
  | invalidInputLength
  | degenerateDictionary
  | notFitted
deriving DecidableEq

/-- The common atom length of a coder's dictionary. -/
def atomLength (c : ConvSparseCoder) : ℕ := (c.atoms.getD 0 []).length

/-- Modelled from the spec (§4.4 and §4.5): run the solver — step size
`1 / lipschitz_estimate`, zero (or warm-started) initialization of shape
`K × (T − L + 1)`, loop until tolerance or iteration cap. -/
noncomputable def solve (atoms : List (List ℝ)) (signal : List ℝ)
    (penalty : ℝ) (positive : Bool) (tol : ℝ) (maxIter : ℕ)
    (warm : Option (List (List ℝ))) : List (List ℝ) :=
  (fistaLoop atoms signal (1 / lipschitz_estimate atoms) penalty positive tol maxIter
    (initState atoms.length (signal.length - (atoms.getD 0 []).length + 1) warm)).z

/-- Modelled from the spec (§4.5): `fit(signal, penalty)` — reject signals
shorter than the atom length before any iteration, reject degenerate
dictionaries, otherwise run the solver and replace the cached codes,
returning the updated coder handle. -/
noncomputable def fit (c : ConvSparseCoder) (signal : List ℝ)
    (penalty tol : ℝ) (maxIter : ℕ) (warm : Option (List (List ℝ))) :
    Except FitError ConvSparseCoder :=
  if signal.length < atomLength c then .error .invalidInputLength
  else if lipschitz_estimate c.atoms ≤ 0 then .error .degenerateDictionary
  else .ok { c with
    sparse_codes := some (solve c.atoms signal penalty c.positive_code tol maxIter warm),
    signal_length := signal.length }

/-- Modelled from the spec (§4.5): `predict()` — recompute
`forward(codes, atoms)` from the cached codes; `NotFitted` before any
successful fit. -/
noncomputable def predict (c : ConvSparseCoder) : Except FitError (List ℝ) :=
  match c.sparse_codes with
  | none => .error .notFitted
  | some z => .ok (forward c.signal_length z c.atoms)

end CSC

/-! ### Notebook-level definitions (embedded from the notebook source) -/

namespace CSC

/-- Mean of a list of reals (`numpy.mean`). -/
noncomputable def listMean (l : List ℝ) : ℝ := l.sum / l.length

/-- Population variance of a list of reals (`ddof = 0`, as `numpy.std`
squares). -/
noncomputable def listVar (l : List ℝ) : ℝ := ((l.map fun x => (x - listMean l) ^ 2).sum) / l.length

/-- Population standard deviation of a list of reals (`numpy.std`). -/
noncomputable def listStd (l : List ℝ) : ℝ := Real.sqrt (listVar l)

/-- The signal after the notebook's `signal -= signal.mean()`. -/
noncomputable def centeredSignal (l : List ℝ) : List ℝ := l.map fun x => x - listMean l

/-- `get_signal` from the notebook: select a dimension, subtract the mean,
then divide by the standard deviation (computed after centering, as the
in-place `-=`/`/=` sequence does). -/
noncomputable def get_signal (l : List ℝ) : List ℝ :=
  (centeredSignal l).map fun x => x / listStd (centeredSignal l)

/-- `atom_1` from the notebook's toy example: 33 zeros, 34 ones, 33 zeros. -/
noncomputable def atom_1 : List ℝ := List.replicate 33 0 ++ List.replicate 34 1 ++ List.replicate 33 0

/-- `atom_2` from the notebook's toy example (its printed literal values). -/
noncomputable def atom_2 : List ℝ := List.replicate 33 0 ++
  [3.33066907e-16, 6.06060606e-2, 1.21212121e-1, 1.81818182e-1, 2.42424242e-1,
   3.03030303e-1, 3.63636364e-1, 4.24242424e-1, 4.84848485e-1, 5.45454545e-1,
   6.06060606e-1, 6.66666667e-1, 7.27272727e-1, 7.87878788e-1, 8.48484848e-1,
   9.09090909e-1, 9.69696970e-1, 1.03030303, 1.09090909, 1.15151515,
   1.21212121, 1.27272727, 1.33333333, 1.39393939, 1.45454545,
   1.51515152, 1.57575758, 1.63636364, 1.69696970, 1.75757576,
   1.81818182, 1.87878788, 1.93939394, 5.55111512e-16] ++ List.replicate 33 0

/-- `numpy.convolve(a, v, mode := same)` for `a` at least as long as `v`:
the centered crop, of the first list's length, of the full convolution. -/
noncomputable def convolveSame (a v : List ℝ) : List ℝ :=
  (List.range a.length).map fun t => convAt a v (t + (v.length - 1) / 2)

/-- The toy-example signal of the notebook: the sum of the two atoms
convolved (mode `same`) with their random activation draws. -/
noncomputable def toySignal (activations1 activations2 : List ℝ) : List ℝ :=
  List.zipWith (· + ·) (convolveSame activations1 atom_1)
    (convolveSame activations2 atom_2)

end CSC

/-! ### Prox entry lemmas -/

namespace CSC

variable {α : Type} [LinearOrderedField α]

theorem length_prox (cand : List (List α)) (τ : α) (positive : Bool) :
    (prox cand τ positive).length = cand.length := by
  simp [prox]

theorem prox_row (cand : List (List α)) (τ : α) (positive : Bool) (k : ℕ)
    (hk : k < cand.length) :
    (prox cand τ positive).getD k [] =
      (cand.getD k []).map fun x => softScalar x τ positive := by
  unfold prox
  rw [List.getD_eq_getElem _ _ (by simpa using hk)]
  rw [List.getElem_map]
  rw [List.getD_eq_getElem _ _ hk]

theorem length_prox_row (cand : List (List α)) (τ : α) (positive : Bool) (k : ℕ) :
    ((prox cand τ positive).getD k []).length = (cand.getD k []).length := by
  rcases lt_or_le k cand.length with hk | hk
  · rw [prox_row cand τ positive k hk]
    simp
  · rw [List.getD_eq_default _ _ (by simpa [prox] using hk),
      List.getD_eq_default _ _ (by simpa using hk)]

theorem eT_prox (cand : List (List α)) (τ : α) (positive : Bool) (k i : ℕ)
    (hk : k < cand.length) (hi : i < (cand.getD k []).length) :
    eT (prox cand τ positive) k i = softScalar (eT cand k i) τ positive := by
  unfold eT
  rw [prox_row cand τ positive k hk]
  unfold eL
  rw [List.getD_eq_getElem _ _ (by simpa using hi),
    List.getD_eq_getElem _ _ hi]
  simp

end CSC

/-! ### Claim C1: the adjoint operation is the exact adjoint of forward -/

namespace CSC

/-- C1: for every dictionary of `K` atoms of common length `L`, every code
tensor `z` of shape `K × (T − L + 1)` and every residual `r` of length `T`,
`⟨forward(z, atoms), r⟩ = ⟨z, adjoint(r, atoms)⟩` exactly. -/
theorem adjoint_is_exact_adjoint (K L T : ℕ) (atoms z : List (List ℝ)) (r : List ℝ)
    (hK : atoms.length = K) (hL : ∀ d ∈ atoms, d.length = L)
    (hL1 : 1 ≤ L) (hLT : L ≤ T)
    (hzK : z.length = K) (hzrow : ∀ row ∈ z, row.length = T - L + 1)
    (hr : r.length = T) :
    dotL (forward T z atoms) r = dotT z (adjoint r atoms) := by
  have hlen : ∀ k, k < atoms.length → (atoms.getD k []).length = L := by
    intro k hk
    rw [List.getD_eq_getElem _ _ hk]
    exact hL _ (List.getElem_mem hk)
  have hzlen : ∀ k, k < atoms.length → (z.getD k []).length = T - L + 1 := by
    intro k hk
    have hkz : k < z.length := by omega
    rw [List.getD_eq_getElem _ _ hkz]
    exact hzrow _ (List.getElem_mem hkz)
  refine dot_forward_adjoint T z atoms r (by omega) ?_ ?_ hr
  · intro k hk
    rw [hzlen k hk, hlen k hk]
  · intro k hk
    rw [hlen k hk]
    exact ⟨hL1, hLT⟩

/-- C1 witness: the identity evaluated at a concrete dictionary, code
tensor and residual. -/
theorem adjoint_is_exact_adjoint_witness :
    dotL (forward 3 [[(1 : ℝ), 1]] [[1, 2]]) [1, 0, 1] =
      dotT [[(1 : ℝ), 1]] (adjoint [1, 0, 1] [[1, 2]]) := by
  refine adjoint_is_exact_adjoint 1 2 3 [[1, 2]] [[1, 1]] [1, 0, 1] rfl ?_
    (by norm_num) (by norm_num) rfl ?_ rfl
  · intro d hd
    rw [List.mem_singleton] at hd
    rw [hd]
    rfl
  · intro row hrow
    rw [List.mem_singleton] at hrow
    rw [hrow]
    rfl

end CSC

/-! ### Claim C3: prox applies element-wise soft-thresholding -/

namespace CSC

/-- C3: `prox(x, threshold, positive)` preserves the shape of its argument
and acts element-wise as `sign(x)·max(|x| − threshold, 0)` when `positive`
is false and as `max(x − threshold, 0)` when `positive` is true.  (In the
model it is a plain function of its three arguments, hence pure and
stateless.) -/
theorem prox_is_elementwise_soft_thresholding (cand : List (List ℝ)) (τ : ℝ)
    (positive : Bool) :
    (prox cand τ positive).length = cand.length ∧
    (∀ k, ((prox cand τ positive).getD k []).length = (cand.getD k []).length) ∧
    ∀ k i, k < cand.length → i < (cand.getD k []).length →
      eT (prox cand τ positive) k i =
        if positive then max (eT cand k i - τ) 0
        else signR (eT cand k i) * max (|eT cand k i| - τ) 0 := by
  refine ⟨length_prox cand τ positive, length_prox_row cand τ positive, ?_⟩
  intro k i hk hi
  rw [eT_prox cand τ positive k i hk hi]
  rfl

end CSC

/-! ### Claim C2: every fit call runs the FISTA recurrence -/

namespace CSC

/-- A successful `fit` (validations passed) in canonical form. -/
theorem fit_ok_eq (c : ConvSparseCoder) (signal : List ℝ) (penalty tol : ℝ)
    (maxIter : ℕ) (warm : Option (List (List ℝ)))
    (h1 : ¬ signal.length < atomLength c)
    (h2 : ¬ lipschitz_estimate c.atoms ≤ 0) :
    fit c signal penalty tol maxIter warm = Except.ok { c with
      sparse_codes := some (solve c.atoms signal penalty c.positive_code tol maxIter warm),
      signal_length := signal.length } := by
  unfold fit
  rw [if_neg h1, if_neg h2]

/-- C2: the solver used by `fit` is the accelerated proximal-gradient
recurrence — `z0` is the zero tensor (or the caller-supplied warm start)
with `y0 = z0` and `t0 = 1`; each iteration produces
`z_(i+1) = prox(y_i + step·adjoint(signal − forward(y_i)), step·penalty)`,
`t_(i+1) = (1 + sqrt(1 + 4·t_i²))/2` and
`y_(i+1) = z_(i+1) + ((t_i − 1)/t_(i+1))·(z_(i+1) − z_i)`; and a
successful `fit` runs exactly this loop from the zero (or warm)
initialization of shape `(K, T − L + 1)` with step `1/lipschitz_estimate`. -/
theorem fit_runs_fista_recurrence (K W : ℕ) (w : List (List ℝ))
    (warm : Option (List (List ℝ))) (atoms : List (List ℝ)) (signal : List ℝ)
    (stepSize penalty : ℝ) (positive : Bool) (s : SolverState) (n : ℕ)
    (c : ConvSparseCoder) (tol : ℝ) (maxIter : ℕ) :
    (initState K W none).z = zeroCodes K W ∧
    (initState K W (some w)).z = w ∧
    (initState K W warm).y = (initState K W warm).z ∧
    (initState K W warm).t = 1 ∧
    fistaSeq atoms signal stepSize penalty positive (initState K W warm) (n + 1) =
      fistaStep atoms signal stepSize penalty positive
        (fistaSeq atoms signal stepSize penalty positive (initState K W warm) n) ∧
    (fistaStep atoms signal stepSize penalty positive s).z =
      prox (tAdd s.y (tSmul stepSize
          (adjoint (vSub signal (forward signal.length s.y atoms)) atoms)))
        (stepSize * penalty) positive ∧
    (fistaStep atoms signal stepSize penalty positive s).t =
      (1 + Real.sqrt (1 + 4 * s.t ^ 2)) / 2 ∧
    (fistaStep atoms signal stepSize penalty positive s).y =
      tAdd (fistaStep atoms signal stepSize penalty positive s).z
        (tSmul ((s.t - 1) / (fistaStep atoms signal stepSize penalty positive s).t)
          (tSub (fistaStep atoms signal stepSize penalty positive s).z s.z)) ∧
    (¬ signal.length < atomLength c → ¬ lipschitz_estimate c.atoms ≤ 0 →
      fit c signal penalty tol maxIter warm = Except.ok { c with
        sparse_codes := some ((fistaLoop c.atoms signal
          (1 / lipschitz_estimate c.atoms) penalty c.positive_code tol maxIter
          (initState c.atoms.length (signal.length - atomLength c + 1) warm)).z),
        signal_length := signal.length }) := by
  refine ⟨rfl, rfl, rfl, rfl, rfl, rfl, rfl, rfl, ?_⟩
  intro h1 h2
  rw [fit_ok_eq c signal penalty tol maxIter warm h1 h2]
  rfl

end CSC

/-! ### Claim C9: short signals are rejected with InvalidInputLength -/

namespace CSC

/-- C9: for every coder, every signal strictly shorter than the atom
length, and every configuration (in particular every iteration budget),
`fit` fails with `InvalidInputLength`; the quantification over `maxIter`
shows that no solver iteration is involved in the rejection. -/
theorem fit_rejects_short_signal (c : ConvSparseCoder) (signal : List ℝ)
    (penalty tol : ℝ) (maxIter : ℕ) (warm : Option (List (List ℝ)))
    (h : signal.length < atomLength c) :
    fit c signal penalty tol maxIter warm = Except.error FitError.invalidInputLength := by
  unfold fit
  rw [if_pos h]

/-- C9 witness: a length-1 signal against a length-2 atom is rejected. -/
theorem fit_rejects_short_signal_witness :
    fit ⟨[[1, 1]], true, none, 0⟩ [5] 1 1 100 none =
      Except.error FitError.invalidInputLength :=
  fit_rejects_short_signal ⟨[[1, 1]], true, none, 0⟩ [5] 1 1 100 none
    (by norm_num [atomLength])

end CSC

/-! ### Claim C8: fit returns the handle and overwrites the cached codes -/

namespace CSC

/-- C8: a successful `fit` returns the coder handle (same dictionary and
flag) with the cached codes replaced by the result of this call's solve —
a value depending only on the current call's inputs; consequently the
previously cached codes and signal length have no influence on `fit`
(overwrite, not merge). -/
theorem fit_returns_handle_and_overwrites (c : ConvSparseCoder) (signal : List ℝ)
    (penalty tol : ℝ) (maxIter : ℕ) (warm : Option (List (List ℝ)))
    (c' : ConvSparseCoder)
    (hfit : fit c signal penalty tol maxIter warm = Except.ok c') :
    c'.atoms = c.atoms ∧ c'.positive_code = c.positive_code ∧
    c'.sparse_codes = some (solve c.atoms signal penalty c.positive_code tol maxIter warm) ∧
    c'.signal_length = signal.length ∧
    ∀ prev sl, fit ⟨c.atoms, c.positive_code, prev, sl⟩ signal penalty tol maxIter warm =
      fit c signal penalty tol maxIter warm := by
  unfold fit at hfit
  by_cases h1 : signal.length < atomLength c
  · rw [if_pos h1] at hfit
    exact absurd hfit (by simp)
  · rw [if_neg h1] at hfit
    by_cases h2 : lipschitz_estimate c.atoms ≤ 0
    · rw [if_pos h2] at hfit
      exact absurd hfit (by simp)
    · rw [if_neg h2] at hfit
      have hc : c' = { c with
          sparse_codes := some (solve c.atoms signal penalty c.positive_code tol maxIter warm),
          signal_length := signal.length } := by
        exact (Except.ok.injEq _ _).mp hfit.symm
      subst hc
      refine ⟨rfl, rfl, rfl, rfl, ?_⟩
      intro prev sl
      rw [fit_ok_eq ⟨c.atoms, c.positive_code, prev, sl⟩ signal penalty tol maxIter warm h1 h2]
      rw [fit_ok_eq c signal penalty tol maxIter warm h1 h2]

/-- C8 witness: a concrete successful fit whose result carries the fresh
codes of this call. -/
theorem fit_returns_handle_and_overwrites_witness :
    ((⟨[[1]], true, some (solve [[1]] [0] 1 true 1 1 none), 1⟩ :
        ConvSparseCoder)).sparse_codes =
      some (solve [[1]] [0] 1 true 1 1 none) := by
  have hfit : fit ⟨[[1]], true, none, 0⟩ [0] 1 1 1 none =
      Except.ok ⟨[[1]], true, some (solve [[1]] [0] 1 true 1 1 none), 1⟩ := by
    unfold fit
    rw [if_neg (by norm_num [atomLength]), if_neg (by
      norm_num [lipschitz_estimate, norm1L, eL, Finset.sum_range_succ])]
    rfl
  exact (fit_returns_handle_and_overwrites ⟨[[1]], true, none, 0⟩ [0] 1 1 1 none
    ⟨[[1]], true, some (solve [[1]] [0] 1 true 1 1 none), 1⟩ hfit).2.2.1

end CSC

/-! ### Claim C7: the coder is deterministic (two-run property) -/

namespace CSC

/-- C7: two executions of `fit` with the same dictionary, positivity flag,
signal, penalty, tolerance, iteration cap and warm start produce identical
results (whatever codes were previously cached), and `predict` called
twice without an intervening `fit` returns identical reconstructions.
In this embedding the coder is a pure function of its inputs — there is no
hidden source of nondeterminism. -/
theorem coder_is_deterministic (c₁ c₂ : ConvSparseCoder) (signal : List ℝ)
    (penalty tol : ℝ) (maxIter : ℕ) (warm : Option (List (List ℝ)))
    (hatoms : c₁.atoms = c₂.atoms) (hpos : c₁.positive_code = c₂.positive_code) :
    fit c₁ signal penalty tol maxIter warm = fit c₂ signal penalty tol maxIter warm ∧
    predict c₁ = predict c₁ := by
  obtain ⟨a₁, p₁, sc₁, sl₁⟩ := c₁
  obtain ⟨a₂, p₂, sc₂, sl₂⟩ := c₂
  simp only at hatoms hpos
  subst hatoms
  subst hpos
  exact ⟨rfl, rfl⟩

/-- C7 witness: two coders sharing the dictionary and flag but with
different caches produce the same fit result. -/
theorem coder_is_deterministic_witness :
    fit ⟨[[1]], true, none, 0⟩ [0] 1 1 1 none =
      fit ⟨[[1]], true, some [[5]], 7⟩ [0] 1 1 1 none ∧
    predict ⟨[[1]], true, none, 0⟩ = predict ⟨[[1]], true, none, 0⟩ :=
  coder_is_deterministic ⟨[[1]], true, none, 0⟩ ⟨[[1]], true, some [[5]], 7⟩
    [0] 1 1 1 none rfl rfl

end CSC

/-! ### Shape invariance of the solver -/

namespace CSC

variable {α : Type} [LinearOrderedField α]

/-- A code tensor of `K` rows, each of length `W`. -/
def TensorShape (z : List (List α)) (K W : ℕ) : Prop :=
  z.length = K ∧ ∀ k, k < K → (z.getD k []).length = W

theorem shape_zeroCodes (K W : ℕ) : TensorShape (zeroCodes (α := α) K W) K W := by
  constructor
  · simp [zeroCodes]
  · intro k hk
    unfold zeroCodes
    rw [List.getD_eq_getElem _ _ (by simpa using hk)]
    simp

theorem zip_row {β : Type} (f : List α → List α → List β) (z w : List (List α)) (k : ℕ)
    (hk : k < z.length) (hk2 : k < w.length) :
    (List.zipWith f z w).getD k [] = f (z.getD k []) (w.getD k []) := by
  rw [List.getD_eq_getElem _ _ (by simp [List.length_zipWith]; omega)]
  rw [List.getElem_zipWith]
  rw [List.getD_eq_getElem _ _ hk, List.getD_eq_getElem _ _ hk2]

theorem shape_tAdd (z w : List (List α)) (K W : ℕ)
    (hz : TensorShape z K W) (hw : TensorShape w K W) :
    TensorShape (tAdd z w) K W := by
  obtain ⟨hz1, hz2⟩ := hz
  obtain ⟨hw1, hw2⟩ := hw
  constructor
  · simp [tAdd, List.length_zipWith, hz1, hw1]
  · intro k hk
    rw [tAdd, zip_row _ z w k (by omega) (by omega)]
    rw [List.length_zipWith, hz2 k hk, hw2 k hk]
    exact min_self W

theorem shape_tSub (z w : List (List α)) (K W : ℕ)
    (hz : TensorShape z K W) (hw : TensorShape w K W) :
    TensorShape (tSub z w) K W := by
  obtain ⟨hz1, hz2⟩ := hz
  obtain ⟨hw1, hw2⟩ := hw
  constructor
  · simp [tSub, List.length_zipWith, hz1, hw1]
  · intro k hk
    rw [tSub, zip_row _ z w k (by omega) (by omega)]
    rw [List.length_zipWith, hz2 k hk, hw2 k hk]
    exact min_self W

theorem shape_tSmul (a : α) (z : List (List α)) (K W : ℕ)
    (hz : TensorShape z K W) : TensorShape (tSmul a z) K W := by
  obtain ⟨hz1, hz2⟩ := hz
  constructor
  · simp [tSmul, hz1]
  · intro k hk
    unfold tSmul
    rw [List.getD_eq_getElem _ _ (by simpa [hz1] using hk)]
    rw [List.getElem_map, List.length_map]
    rw [← List.getD_eq_getElem z ([] : List α) (by omega)]
    exact hz2 k hk

theorem shape_prox (cand : List (List α)) (τ : α) (positive : Bool) (K W : ℕ)
    (hc : TensorShape cand K W) : TensorShape (prox cand τ positive) K W := by
  obtain ⟨h1, h2⟩ := hc
  exact ⟨by rw [length_prox, h1], fun k hk => by
    rw [length_prox_row, h2 k hk]⟩

theorem shape_adjoint (r : List α) (atoms : List (List α)) (L : ℕ)
    (hL : ∀ k, k < atoms.length → (atoms.getD k []).length = L) :
    TensorShape (adjoint r atoms) atoms.length (r.length - L + 1) := by
  constructor
  · exact length_adjoint r atoms
  · intro k hk
    rw [length_adjoint_row r atoms k hk, hL k hk]

end CSC

namespace CSC

theorem shape_fistaStep (atoms : List (List ℝ)) (signal : List ℝ)
    (stepSize penalty : ℝ) (positive : Bool) (s : SolverState) (L : ℕ)
    (hL : ∀ k, k < atoms.length → (atoms.getD k []).length = L)
    (hz : TensorShape s.z atoms.length (signal.length - L + 1))
    (hy : TensorShape s.y atoms.length (signal.length - L + 1)) :
    TensorShape (fistaStep atoms signal stepSize penalty positive s).z
        atoms.length (signal.length - L + 1) ∧
    TensorShape (fistaStep atoms signal stepSize penalty positive s).y
        atoms.length (signal.length - L + 1) := by
  have hres : (vSub signal (forward signal.length s.y atoms)).length = signal.length := by
    simp [vSub, List.length_zipWith, length_forward]
  have hadj : TensorShape (adjoint (vSub signal (forward signal.length s.y atoms)) atoms)
      atoms.length (signal.length - L + 1) := by
    have := shape_adjoint (vSub signal (forward signal.length s.y atoms)) atoms L hL
    rwa [hres] at this
  have hz1 : TensorShape (fistaStep atoms signal stepSize penalty positive s).z
      atoms.length (signal.length - L + 1) := by
    exact shape_prox _ _ _ _ _ (shape_tAdd _ _ _ _ hy (shape_tSmul _ _ _ _ hadj))
  refine ⟨hz1, ?_⟩
  exact shape_tAdd _ _ _ _ hz1 (shape_tSmul _ _ _ _ (shape_tSub _ _ _ _ hz1 hz))

theorem shape_fistaLoop (atoms : List (List ℝ)) (signal : List ℝ)
    (stepSize penalty tol : ℝ) (positive : Bool) (L : ℕ) (n : ℕ)
    (hL : ∀ k, k < atoms.length → (atoms.getD k []).length = L) :
    ∀ s : SolverState,
      TensorShape s.z atoms.length (signal.length - L + 1) →
      TensorShape s.y atoms.length (signal.length - L + 1) →
      TensorShape (fistaLoop atoms signal stepSize penalty positive tol n s).z
        atoms.length (signal.length - L + 1) := by
  induction n with
  | zero => intro s hz _; exact hz
  | succ n ih =>
    intro s hz hy
    obtain ⟨h1, h2⟩ := shape_fistaStep atoms signal stepSize penalty positive s L hL hz hy
    unfold fistaLoop
    split
    · exact h1
    · exact ih _ h1 h2

theorem shape_solve (atoms : List (List ℝ)) (signal : List ℝ)
    (penalty tol : ℝ) (positive : Bool) (maxIter : ℕ) (L : ℕ)
    (hL : ∀ k, k < atoms.length → (atoms.getD k []).length = L) :
    TensorShape (solve atoms signal penalty positive tol maxIter none)
      atoms.length (signal.length - L + 1) := by
  unfold solve
  have hW : signal.length - (atoms.getD 0 []).length + 1 = signal.length - L + 1 ∨
      atoms.length = 0 := by
    rcases Nat.eq_zero_or_pos atoms.length with h | h
    · exact Or.inr h
    · exact Or.inl (by rw [hL 0 h])
  rcases hW with hW | hW
  · rw [hW]
    exact shape_fistaLoop atoms signal _ penalty tol positive L maxIter hL _
      (shape_zeroCodes _ _) (shape_zeroCodes _ _)
  · have hz0 : TensorShape
        (zeroCodes atoms.length (signal.length - (atoms.getD 0 []).length + 1) :
          List (List ℝ))
        atoms.length (signal.length - L + 1) := by
      constructor
      · simp [zeroCodes]
      · intro k hk
        rw [hW] at hk
        omega
    exact shape_fistaLoop atoms signal _ penalty tol positive L maxIter hL _ hz0 hz0

/-- Inversion of a successful `fit`. -/
theorem fit_ok_inv (c : ConvSparseCoder) (signal : List ℝ) (penalty tol : ℝ)
    (maxIter : ℕ) (warm : Option (List (List ℝ))) (c' : ConvSparseCoder)
    (hfit : fit c signal penalty tol maxIter warm = Except.ok c') :
    ¬ signal.length < atomLength c ∧ ¬ lipschitz_estimate c.atoms ≤ 0 ∧
    c' = { c with
      sparse_codes := some (solve c.atoms signal penalty c.positive_code tol maxIter warm),
      signal_length := signal.length } := by
  unfold fit at hfit
  by_cases h1 : signal.length < atomLength c
  · rw [if_pos h1] at hfit
    exact absurd hfit (by simp)
  · rw [if_neg h1] at hfit
    by_cases h2 : lipschitz_estimate c.atoms ≤ 0
    · rw [if_pos h2] at hfit
      exact absurd hfit (by simp)
    · rw [if_neg h2] at hfit
      exact ⟨h1, h2, ((Except.ok.injEq _ _).mp hfit).symm⟩

end CSC

/-! ### Claim C6: fitted codes have shape K × (T − L + 1) -/

namespace CSC

/-- C6: after a successful fit (default zero initialization) with a signal
of length `T` and a dictionary of `K` atoms of common length `L`, the
cached code tensor has exactly `K` rows — one per atom, in dictionary
order — each of length `T − L + 1`. -/
theorem fit_codes_shape (c : ConvSparseCoder) (signal : List ℝ)
    (penalty tol : ℝ) (maxIter : ℕ) (c' : ConvSparseCoder)
    (codes : List (List ℝ)) (L : ℕ)
    (hK : 0 < c.atoms.length)
    (hL : ∀ d ∈ c.atoms, d.length = L)
    (hfit : fit c signal penalty tol maxIter none = Except.ok c')
    (hcodes : c'.sparse_codes = some codes) :
    codes.length = c.atoms.length ∧
    ∀ row ∈ codes, row.length = signal.length - L + 1 := by
  obtain ⟨h1, h2, hc⟩ := fit_ok_inv c signal penalty tol maxIter none c' hfit
  subst hc
  simp only at hcodes
  have hcs : codes = solve c.atoms signal penalty c.positive_code tol maxIter none := by
    exact (Option.some.injEq _ _).mp hcodes.symm
  subst hcs
  have hL2 : ∀ k, k < c.atoms.length → (c.atoms.getD k []).length = L := by
    intro k hk
    rw [List.getD_eq_getElem _ _ hk]
    exact hL _ (List.getElem_mem hk)
  obtain ⟨hs1, hs2⟩ := shape_solve c.atoms signal penalty tol
    c.positive_code maxIter L hL2
  refine ⟨hs1, ?_⟩
  intro row hrow
  obtain ⟨i, hi, hrw⟩ := List.mem_iff_getElem.mp hrow
  have := hs2 i (by omega)
  rw [List.getD_eq_getElem _ _ hi] at this
  rw [← hrw]
  exact this

/-- C6 witness: a concrete fit produces one code row of the
valid-convolution length. -/
theorem fit_codes_shape_witness :
    (solve [[1]] [0] 1 true 1 1 none).length = 1 ∧
    ∀ row ∈ solve [[1]] [0] 1 true 1 1 none, row.length = 1 := by
  have hfit : fit ⟨[[1]], true, none, 0⟩ [0] 1 1 1 none =
      Except.ok ⟨[[1]], true, some (solve [[1]] [0] 1 true 1 1 none), 1⟩ := by
    refine fit_ok_eq _ _ _ _ _ _ (by norm_num [atomLength]) (by
      norm_num [lipschitz_estimate, norm1L, eL, Finset.sum_range_succ])
  have := fit_codes_shape ⟨[[1]], true, none, 0⟩ [0] 1 1 1
    ⟨[[1]], true, some (solve [[1]] [0] 1 true 1 1 none), 1⟩
    (solve [[1]] [0] 1 true 1 1 none) 1 (by norm_num)
    (by intro d hd; rw [List.mem_singleton] at hd; rw [hd]; rfl) hfit rfl
  simpa using this

end CSC

/-! ### Claim C5: non-negative mode yields non-negative codes -/

namespace CSC

theorem eT_zeroCodes (K W k i : ℕ) : eT (zeroCodes (α := ℝ) K W) k i = 0 := by
  unfold eT zeroCodes
  rcases lt_or_le k K with hk | hk
  · rw [List.getD_eq_getElem _ _ (by simpa using hk)]
    rw [List.getElem_replicate]
    exact eL_replicate_zero W i
  · rw [List.getD_eq_default _ _ (by simpa using hk)]
    exact eL_nil i

theorem eT_prox_pos_nonneg (cand : List (List ℝ)) (τ : ℝ) (k i : ℕ) :
    0 ≤ eT (prox cand τ true) k i := by
  rcases lt_or_le k cand.length with hk | hk
  · rcases lt_or_le i (cand.getD k []).length with hi | hi
    · rw [eT_prox cand τ true k i hk hi]
      unfold softScalar
      rw [if_pos rfl]
      exact le_max_right _ 0
    · unfold eT
      rw [eL_of_ge _ i (by rw [length_prox_row]; omega)]
  · unfold eT
    rw [List.getD_eq_default _ _ (by rw [length_prox]; omega)]
    rw [eL_nil]

theorem fistaLoop_pos_nonneg (atoms : List (List ℝ)) (signal : List ℝ)
    (stepSize penalty tol : ℝ) (n : ℕ) :
    ∀ s : SolverState, ∀ k i,
      0 ≤ eT ((fistaLoop atoms signal stepSize penalty true tol (n + 1) s).z) k i := by
  induction n with
  | zero =>
    intro s k i
    unfold fistaLoop
    split
    · exact eT_prox_pos_nonneg _ _ k i
    · unfold fistaLoop
      exact eT_prox_pos_nonneg _ _ k i
  | succ n ih =>
    intro s k i
    unfold fistaLoop
    split
    · exact eT_prox_pos_nonneg _ _ k i
    · exact ih _ k i

/-- C5: with non-negative coding enabled, every entry of the code tensor
produced by a successful fit is `≥ 0`, for all signals, penalties,
tolerances and warm starts — provided the run either starts from the
default zero initialization or performs at least one iteration (a run
capped at zero iterations returns its warm start unchanged). -/
theorem fit_positive_code_nonneg (c : ConvSparseCoder) (signal : List ℝ)
    (penalty tol : ℝ) (maxIter : ℕ) (warm : Option (List (List ℝ)))
    (c' : ConvSparseCoder) (codes : List (List ℝ))
    (hpos : c.positive_code = true)
    (hw : warm = none ∨ 1 ≤ maxIter)
    (hfit : fit c signal penalty tol maxIter warm = Except.ok c')
    (hcodes : c'.sparse_codes = some codes) :
    ∀ k i, 0 ≤ eT codes k i := by
  obtain ⟨h1, h2, hc⟩ := fit_ok_inv c signal penalty tol maxIter warm c' hfit
  subst hc
  simp only at hcodes
  have hcs : codes = solve c.atoms signal penalty c.positive_code tol maxIter warm :=
    (Option.some.injEq _ _).mp hcodes.symm
  subst hcs
  rw [hpos]
  unfold solve
  intro k i
  rcases maxIter with _ | n
  · rcases hw with hw | hw
    · subst hw
      unfold fistaLoop initState
      simp only [Option.getD_none]
      exact le_of_eq (eT_zeroCodes _ _ k i).symm
    · omega
  · exact fistaLoop_pos_nonneg c.atoms signal _ penalty tol n _ k i

/-- C5 witness: a concrete non-negative-mode fit has non-negative entries
(checked at entry `(0, 0)`). -/
theorem fit_positive_code_nonneg_witness :
    0 ≤ eT (solve [[1]] [0] 1 true 1 1 none) 0 0 := by
  have hfit : fit ⟨[[1]], true, none, 0⟩ [0] 1 1 1 none =
      Except.ok ⟨[[1]], true, some (solve [[1]] [0] 1 true 1 1 none), 1⟩ :=
    fit_ok_eq _ _ _ _ _ _ (by norm_num [atomLength]) (by
      norm_num [lipschitz_estimate, norm1L, eL, Finset.sum_range_succ])
  exact fit_positive_code_nonneg ⟨[[1]], true, none, 0⟩ [0] 1 1 1 none
    ⟨[[1]], true, some (solve [[1]] [0] 1 true 1 1 none), 1⟩
    (solve [[1]] [0] 1 true 1 1 none) rfl (Or.inl rfl) hfit rfl 0 0

end CSC

/-! ### Claim C10: get_signal standardizes; the toy signal does not -/

namespace CSC

theorem sum_map_sub_const (l : List ℝ) (m : ℝ) :
    (l.map fun x => x - m).sum = l.sum - l.length * m := by
  induction l with
  | nil => simp
  | cons a l ih =>
    simp only [List.map_cons, List.sum_cons, List.length_cons, ih]
    push_cast
    ring

theorem sum_map_div (l : List ℝ) (s : ℝ) :
    (l.map fun x => x / s).sum = l.sum / s := by
  induction l with
  | nil => simp
  | cons a l ih =>
    simp only [List.map_cons, List.sum_cons, ih]
    rw [add_div]

theorem centeredSignal_sum (l : List ℝ) (hl : l ≠ []) :
    (centeredSignal l).sum = 0 := by
  unfold centeredSignal
  rw [sum_map_sub_const, listMean]
  have hn : (l.length : ℝ) ≠ 0 := by
    have : l.length ≠ 0 := fun h => hl (List.length_eq_zero.mp h)
    exact_mod_cast this
  field_simp

theorem listVar_nonneg (l : List ℝ) : 0 ≤ listVar l := by
  unfold listVar
  refine div_nonneg (List.sum_nonneg ?_) (by positivity)
  intro x hx
  obtain ⟨a, _, ha⟩ := List.mem_map.mp hx
  rw [← ha]
  positivity

theorem listVar_of_mean_zero (l : List ℝ) (h : listMean l = 0) :
    listVar l = (l.map fun x => x ^ 2).sum / l.length := by
  unfold listVar
  rw [h]
  simp

/-- C10 (amended): whenever the selected signal column has nonzero
standard deviation, `get_signal` returns a standardized sequence —
empirical mean `0` and empirical standard deviation `1`.  (The toy-example
signal fed to `fit` is not produced by `get_signal`; see the accompanying
counterexample.) -/
theorem get_signal_standardizes (l : List ℝ)
    (h : listStd (centeredSignal l) ≠ 0) :
    listMean (get_signal l) = 0 ∧ listStd (get_signal l) = 1 := by
  have hl : l ≠ [] := by
    intro hnil
    subst hnil
    simp [listStd, listVar, centeredSignal, listMean] at h
  have hn0 : l.length ≠ 0 := fun hz => hl (List.length_eq_zero.mp hz)
  have hn : (l.length : ℝ) ≠ 0 := by exact_mod_cast hn0
  set c := centeredSignal l with hc
  set s := listStd c with hs
  have hclen : c.length = l.length := by
    rw [hc]
    unfold centeredSignal
    exact List.length_map _ _
  have hcsum : c.sum = 0 := centeredSignal_sum l hl
  have hglen : (get_signal l).length = l.length := by
    unfold get_signal
    rw [List.length_map, ← hc, hclen]
  have hgsum : (get_signal l).sum = 0 := by
    unfold get_signal
    rw [← hc, ← hs, sum_map_div, hcsum, zero_div]
  have hmean : listMean (get_signal l) = 0 := by
    unfold listMean
    rw [hgsum, zero_div]
  have hvarc : 0 ≤ listVar c := listVar_nonneg c
  have hsq : s ^ 2 = listVar c := by
    rw [hs]
    unfold listStd
    exact Real.sq_sqrt hvarc
  have hvarc_ne : listVar c ≠ 0 := by
    intro h0
    apply h
    rw [hs] at *
    unfold listStd
    rw [h0, Real.sqrt_zero]
  have hcmean : listMean c = 0 := by
    unfold listMean
    rw [hcsum, zero_div]
  have hvar : listVar (get_signal l) = 1 := by
    rw [listVar_of_mean_zero _ hmean, hglen]
    have hmap : (get_signal l).map (fun x => x ^ 2) =
        c.map fun x => x ^ 2 / s ^ 2 := by
      unfold get_signal
      rw [← hc, ← hs, List.map_map]
      refine List.map_congr_left fun a _ => ?_
      simp [div_pow]
    rw [hmap]
    have hmap2 : (c.map fun x => x ^ 2 / s ^ 2) =
        (c.map fun x => x ^ 2).map fun y => y / s ^ 2 := by
      rw [List.map_map]
      rfl
    rw [hmap2, sum_map_div]
    have hvc : listVar c = (c.map fun x => x ^ 2).sum / c.length :=
      listVar_of_mean_zero c hcmean
    rw [hclen] at hvc
    rw [div_div, mul_comm, ← div_div, ← hvc, hsq]
    exact div_self hvarc_ne
  refine ⟨hmean, ?_⟩
  unfold listStd
  rw [hvar, Real.sqrt_one]

/-- C10 witness: `get_signal` standardizes the two-point signal `[1, -1]`. -/
theorem get_signal_standardizes_witness :
    listMean (get_signal [1, -1]) = 0 ∧ listStd (get_signal [1, -1]) = 1 := by
  refine get_signal_standardizes [1, -1] ?_
  have h1 : listMean [(1 : ℝ), -1] = 0 := by
    norm_num [listMean]
  have h2 : centeredSignal [(1 : ℝ), -1] = [1, -1] := by
    unfold centeredSignal
    rw [h1]
    norm_num
  rw [h2]
  have h3 : listVar [(1 : ℝ), -1] = 1 := by
    unfold listVar
    rw [h1]
    norm_num
  unfold listStd
  rw [h3, Real.sqrt_one]
  norm_num

theorem convAt_zero_left (n : ℕ) (v : List ℝ) (t : ℕ) :
    convAt (List.replicate n (0 : ℝ)) v t = 0 := by
  unfold convAt
  refine Finset.sum_eq_zero fun j _ => ?_
  rw [eL_replicate_zero, zero_mul]

theorem convolveSame_zero (n : ℕ) (v : List ℝ) :
    convolveSame (List.replicate n (0 : ℝ)) v = List.replicate n 0 := by
  unfold convolveSame
  rw [List.eq_replicate_iff]
  constructor
  · simp
  · intro b hb
    obtain ⟨t, _, hbt⟩ := List.mem_map.mp hb
    rw [← hbt]
    simp [convAt_zero_left]

/-- C10 counterexample: the all-zero activation draw — a possible outcome
of the notebook's random binomial activations — yields a toy signal that
is fed to `fit` yet has standard deviation `0`, not `1`; so not every
signal the notebook feeds to `fit` is zero-mean and unit-variance. -/
theorem toy_signal_not_standardized :
    toySignal (List.replicate 1000 0) (List.replicate 1000 0) =
      List.replicate 1000 0 ∧
    listStd (toySignal (List.replicate 1000 0) (List.replicate 1000 0)) ≠ 1 := by
  have hz : toySignal (List.replicate 1000 0) (List.replicate 1000 0) =
      List.replicate 1000 0 := by
    unfold toySignal
    rw [convolveSame_zero, convolveSame_zero, List.zipWith_replicate]
    norm_num
  refine ⟨hz, ?_⟩
  rw [hz]
  have hmean : listMean (List.replicate 1000 (0 : ℝ)) = 0 := by
    unfold listMean
    rw [List.sum_replicate]
    norm_num
  have hvar : listVar (List.replicate 1000 (0 : ℝ)) = 0 := by
    unfold listVar
    rw [hmean]
    rw [List.map_replicate]
    norm_num
  unfold listStd
  rw [hvar, Real.sqrt_zero]
  norm_num

end CSC

/-! ### Descent toolbox for the amended monotonicity claim -/

namespace CSC

/-- The scalar soft-threshold output `s` of candidate `c` at threshold `τ`
satisfies `c·s ≥ s²/2 + τ·|s|` — the prox-minimality fact behind the
sufficient-decrease estimate. -/
theorem softScalar_ineq (c τ : ℝ) (hτ : 0 ≤ τ) (pos : Bool) :
    softScalar c τ pos ^ 2 / 2 + τ * |softScalar c τ pos| ≤ c * softScalar c τ pos := by
  unfold softScalar
  cases pos
  · simp only [Bool.false_eq_true, if_false]
    unfold signR
    rcases lt_trichotomy c 0 with hc | hc | hc
    · rw [if_neg (by linarith), if_pos hc]
      rcases le_or_lt (|c| - τ) 0 with hm | hm
      · rw [max_eq_right hm]
        simp
      · rw [max_eq_left (le_of_lt hm)]
        rw [abs_of_neg hc] at hm ⊢
        have hs : (-1 : ℝ) * (-c - τ) = c + τ := by ring
        rw [hs, abs_of_neg (by linarith)]
        nlinarith [sq_nonneg (c + τ)]
    · subst hc
      rw [if_neg (by linarith)]
      simp
    · rw [if_pos hc]
      rcases le_or_lt (|c| - τ) 0 with hm | hm
      · rw [max_eq_right hm]
        simp
      · rw [max_eq_left (le_of_lt hm)]
        rw [abs_of_pos hc] at hm ⊢
        rw [one_mul, abs_of_pos (by linarith)]
        nlinarith [sq_nonneg (c - τ)]
  · simp only [if_true]
    rcases le_or_lt (c - τ) 0 with hm | hm
    · rw [max_eq_right hm]
      simp
    · rw [max_eq_left (le_of_lt hm)]
      rw [abs_of_pos (by linarith)]
      nlinarith [sq_nonneg (c - τ)]

theorem sum_sq_range_le (z : List ℝ) (T : ℕ) :
    ∑ j ∈ Finset.range T, eL z j ^ 2 ≤ ∑ j ∈ Finset.range z.length, eL z j ^ 2 := by
  rcases le_total T z.length with h | h
  · refine Finset.sum_le_sum_of_subset_of_nonneg ?_ ?_
    · intro x hx
      simp only [Finset.mem_range] at hx ⊢
      omega
    · intro i _ _
      positivity
  · refine le_of_eq (Finset.sum_subset ?_ ?_).symm
    · intro x hx
      simp only [Finset.mem_range] at hx ⊢
      omega
    · intro x _ hx
      simp only [Finset.mem_range, not_lt] at hx
      rw [eL_of_ge z x hx]
      norm_num

theorem sum_abs_range_le (a : List ℝ) (n : ℕ) :
    ∑ i ∈ Finset.range n, |eL a i| ≤ norm1L a := by
  unfold norm1L
  rcases le_total n a.length with h | h
  · refine Finset.sum_le_sum_of_subset_of_nonneg ?_ ?_
    · intro x hx
      simp only [Finset.mem_range] at hx ⊢
      omega
    · intro i _ _
      positivity
  · refine le_of_eq (Finset.sum_subset ?_ ?_).symm
    · intro x hx
      simp only [Finset.mem_range] at hx ⊢
      omega
    · intro x _ hx
      simp only [Finset.mem_range, not_lt] at hx
      rw [eL_of_ge a x hx]
      norm_num

theorem norm1L_nonneg (a : List ℝ) : 0 ≤ norm1L a := by
  unfold norm1L
  exact Finset.sum_nonneg fun i _ => abs_nonneg _

theorem tSmul_row (a : ℝ) (z : List (List ℝ)) (k : ℕ) (hk : k < z.length) :
    (tSmul a z).getD k [] = (z.getD k []).map fun x => a * x := by
  unfold tSmul
  rw [List.getD_eq_getElem _ _ (by simpa using hk)]
  rw [List.getElem_map]
  rw [List.getD_eq_getElem _ _ hk]

theorem eT_tSmul (a : ℝ) (z : List (List ℝ)) (k i : ℕ) (hk : k < z.length)
    (hi : i < (z.getD k []).length) :
    eT (tSmul a z) k i = a * eT z k i := by
  unfold eT
  rw [tSmul_row a z k hk]
  unfold eL
  rw [List.getD_eq_getElem _ _ (by simpa using hi), List.getD_eq_getElem _ _ hi]
  rw [List.getElem_map]

theorem eL_vSub (a b : List ℝ) (i : ℕ) (ha : i < a.length) (hb : i < b.length) :
    eL (vSub a b) i = eL a i - eL b i := by
  unfold vSub eL
  rw [List.getD_eq_getElem _ _ (by simp [List.length_zipWith]; omega)]
  rw [List.getElem_zipWith]
  rw [List.getD_eq_getElem _ _ ha, List.getD_eq_getElem _ _ hb]

theorem dotT_entries (z w : List (List ℝ)) (K W : ℕ) (hz : TensorShape z K W) :
    dotT z w = ∑ k ∈ Finset.range K, ∑ j ∈ Finset.range W, eT z k j * eT w k j := by
  obtain ⟨h1, h2⟩ := hz
  unfold dotT
  rw [h1]
  refine Finset.sum_congr rfl fun k hk => ?_
  unfold dotL
  rw [h2 k (Finset.mem_range.mp hk)]
  rfl

theorem norm1T_entries (z : List (List ℝ)) (K W : ℕ) (hz : TensorShape z K W) :
    norm1T z = ∑ k ∈ Finset.range K, ∑ j ∈ Finset.range W, |eT z k j| := by
  obtain ⟨h1, h2⟩ := hz
  unfold norm1T
  rw [h1]
  refine Finset.sum_congr rfl fun k hk => ?_
  unfold norm1L
  rw [h2 k (Finset.mem_range.mp hk)]
  rfl

theorem dotT_self_nonneg (z : List (List ℝ)) : 0 ≤ dotT z z := by
  unfold dotT
  refine Finset.sum_nonneg fun k _ => ?_
  unfold dotL
  refine Finset.sum_nonneg fun i _ => mul_self_nonneg _

end CSC

/-! ### Operator-norm bound for the forward convolution -/

namespace CSC

theorem sum_sq_le_sq_sum {ι : Type} (s : Finset ι) (b : ι → ℝ)
    (hb : ∀ i ∈ s, 0 ≤ b i) :
    ∑ i ∈ s, b i ^ 2 ≤ (∑ i ∈ s, b i) ^ 2 := by
  have h1 : ∑ i ∈ s, b i ^ 2 ≤ ∑ i ∈ s, b i * ∑ j ∈ s, b j := by
    refine Finset.sum_le_sum fun i hi => ?_
    rw [pow_two]
    exact mul_le_mul_of_nonneg_left (Finset.single_le_sum hb hi) (hb i hi)
  calc ∑ i ∈ s, b i ^ 2 ≤ ∑ i ∈ s, b i * ∑ j ∈ s, b j := h1
    _ = (∑ i ∈ s, b i) * ∑ j ∈ s, b j := by rw [← Finset.sum_mul]
    _ = (∑ i ∈ s, b i) ^ 2 := by rw [pow_two]

/-- Young-type bound for one atom: the energy of the cropped full
convolution is at most `‖a‖₁²` times the code energy. -/
theorem young_conv (z a : List ℝ) (T : ℕ) :
    ∑ t ∈ Finset.range T, convAt z a t ^ 2 ≤
      norm1L a ^ 2 * ∑ j ∈ Finset.range T, eL z j ^ 2 := by
  have key : ∀ t, convAt z a t ^ 2 ≤
      norm1L a * ∑ j ∈ Finset.range (t + 1), |eL a (t - j)| * eL z j ^ 2 := by
    intro t
    have habs : |convAt z a t| ≤ ∑ j ∈ Finset.range (t + 1), |eL a (t - j)| * |eL z j| := by
      unfold convAt
      refine (Finset.abs_sum_le_sum_abs _ _).trans ?_
      refine le_of_eq (Finset.sum_congr rfl fun j _ => ?_)
      rw [abs_mul, mul_comm]
    have hsq : convAt z a t ^ 2 ≤
        (∑ j ∈ Finset.range (t + 1), |eL a (t - j)| * |eL z j|) ^ 2 := by
      rw [← sq_abs (convAt z a t)]
      exact pow_le_pow_left (abs_nonneg _) habs 2
    have hcs : (∑ j ∈ Finset.range (t + 1), |eL a (t - j)| * |eL z j|) ^ 2 ≤
        (∑ j ∈ Finset.range (t + 1), |eL a (t - j)|) *
          ∑ j ∈ Finset.range (t + 1), |eL a (t - j)| * eL z j ^ 2 := by
      have h := Finset.sum_mul_sq_le_sq_mul_sq (Finset.range (t + 1))
        (fun j => Real.sqrt |eL a (t - j)|)
        (fun j => Real.sqrt |eL a (t - j)| * |eL z j|)
      have e1 : ∑ j ∈ Finset.range (t + 1),
          Real.sqrt |eL a (t - j)| * (Real.sqrt |eL a (t - j)| * |eL z j|) =
          ∑ j ∈ Finset.range (t + 1), |eL a (t - j)| * |eL z j| := by
        refine Finset.sum_congr rfl fun j _ => ?_
        rw [← mul_assoc, Real.mul_self_sqrt (abs_nonneg _)]
      have e2 : ∑ j ∈ Finset.range (t + 1), Real.sqrt |eL a (t - j)| ^ 2 =
          ∑ j ∈ Finset.range (t + 1), |eL a (t - j)| := by
        refine Finset.sum_congr rfl fun j _ => ?_
        exact Real.sq_sqrt (abs_nonneg _)
      have e3 : ∑ j ∈ Finset.range (t + 1),
          (Real.sqrt |eL a (t - j)| * |eL z j|) ^ 2 =
          ∑ j ∈ Finset.range (t + 1), |eL a (t - j)| * eL z j ^ 2 := by
        refine Finset.sum_congr rfl fun j _ => ?_
        rw [mul_pow, Real.sq_sqrt (abs_nonneg _), sq_abs]
      rw [e1, e2, e3] at h
      exact h
    have hrefl : ∑ j ∈ Finset.range (t + 1), |eL a (t - j)| ≤ norm1L a := by
      have h := Finset.sum_range_reflect (fun i => |eL a i|) (t + 1)
      have h2 : ∀ j ∈ Finset.range (t + 1), |eL a (t + 1 - 1 - j)| = |eL a (t - j)| := by
        intro j _
        norm_num
      rw [Finset.sum_congr rfl h2] at h
      rw [h]
      exact sum_abs_range_le a (t + 1)
    have hpos : 0 ≤ ∑ j ∈ Finset.range (t + 1), |eL a (t - j)| * eL z j ^ 2 :=
      Finset.sum_nonneg fun j _ => mul_nonneg (abs_nonneg _) (sq_nonneg _)
    calc convAt z a t ^ 2 ≤ _ := hsq
      _ ≤ _ := hcs
      _ ≤ norm1L a * ∑ j ∈ Finset.range (t + 1), |eL a (t - j)| * eL z j ^ 2 :=
        mul_le_mul_of_nonneg_right hrefl hpos
  calc ∑ t ∈ Finset.range T, convAt z a t ^ 2
      ≤ ∑ t ∈ Finset.range T, norm1L a *
          ∑ j ∈ Finset.range (t + 1), |eL a (t - j)| * eL z j ^ 2 :=
        Finset.sum_le_sum fun t _ => key t
    _ = norm1L a * ∑ t ∈ Finset.range T,
          ∑ j ∈ Finset.range (t + 1), |eL a (t - j)| * eL z j ^ 2 := by
        rw [Finset.mul_sum]
    _ = norm1L a * ∑ j ∈ Finset.range T,
          ∑ i ∈ Finset.range (T - j), |eL a (j + i - j)| * eL z j ^ 2 := by
        rw [sum_triangle T (fun j t => |eL a (t - j)| * eL z j ^ 2)]
    _ ≤ norm1L a * ∑ j ∈ Finset.range T, norm1L a * eL z j ^ 2 := by
        refine mul_le_mul_of_nonneg_left (Finset.sum_le_sum fun j _ => ?_)
          (norm1L_nonneg a)
        have e4 : ∑ i ∈ Finset.range (T - j), |eL a (j + i - j)| * eL z j ^ 2 =
            (∑ i ∈ Finset.range (T - j), |eL a i|) * eL z j ^ 2 := by
          rw [Finset.sum_mul]
          refine Finset.sum_congr rfl fun i _ => ?_
          rw [Nat.add_sub_cancel_left]
        rw [e4]
        exact mul_le_mul_of_nonneg_right (sum_abs_range_le a (T - j)) (sq_nonneg _)
    _ = norm1L a ^ 2 * ∑ j ∈ Finset.range T, eL z j ^ 2 := by
        rw [Finset.mul_sum, Finset.mul_sum]
        refine Finset.sum_congr rfl fun j _ => ?_
        ring

/-- Operator-norm bound: the energy of `forward(z)` is at most
`lipschitz_estimate(atoms)` times the code energy. -/
theorem forward_sq_le (T : ℕ) (z atoms : List (List ℝ)) (W : ℕ)
    (hz : TensorShape z atoms.length W) :
    sqNormL (forward T z atoms) ≤ lipschitz_estimate atoms * dotT z z := by
  obtain ⟨hz1, hz2⟩ := hz
  set K := atoms.length with hK
  have hw : ∀ k, 0 ≤ ∑ t ∈ Finset.range T, convAt (z.getD k []) (atoms.getD k []) t ^ 2 :=
    fun k => Finset.sum_nonneg fun t _ => sq_nonneg _
  -- Step 1: write the norm as a sum of squared entry sums
  have h1 : sqNormL (forward T z atoms) =
      ∑ t ∈ Finset.range T,
        (∑ k ∈ Finset.range K, convAt (z.getD k []) (atoms.getD k []) t) ^ 2 := by
    unfold sqNormL dotL
    rw [length_forward]
    refine Finset.sum_congr rfl fun t ht => ?_
    rw [eL_forward T z atoms t (Finset.mem_range.mp ht), ← pow_two]
  rw [h1]
  -- Step 2: bound by absolute values and expand the square of the sum
  have h2 : ∑ t ∈ Finset.range T,
      (∑ k ∈ Finset.range K, convAt (z.getD k []) (atoms.getD k []) t) ^ 2 ≤
      ∑ k ∈ Finset.range K, ∑ l ∈ Finset.range K, ∑ t ∈ Finset.range T,
        |convAt (z.getD k []) (atoms.getD k []) t| *
          |convAt (z.getD l []) (atoms.getD l []) t| := by
    have hstep : ∀ t, (∑ k ∈ Finset.range K, convAt (z.getD k []) (atoms.getD k []) t) ^ 2 ≤
        ∑ k ∈ Finset.range K, ∑ l ∈ Finset.range K,
          |convAt (z.getD k []) (atoms.getD k []) t| *
            |convAt (z.getD l []) (atoms.getD l []) t| := by
      intro t
      have ha : (∑ k ∈ Finset.range K, convAt (z.getD k []) (atoms.getD k []) t) ^ 2 ≤
          (∑ k ∈ Finset.range K, |convAt (z.getD k []) (atoms.getD k []) t|) ^ 2 := by
        rw [← sq_abs]
        exact pow_le_pow_left (abs_nonneg _) (Finset.abs_sum_le_sum_abs _ _) 2
      calc (∑ k ∈ Finset.range K, convAt (z.getD k []) (atoms.getD k []) t) ^ 2
          ≤ (∑ k ∈ Finset.range K, |convAt (z.getD k []) (atoms.getD k []) t|) ^ 2 := ha
        _ = ∑ k ∈ Finset.range K, ∑ l ∈ Finset.range K,
              |convAt (z.getD k []) (atoms.getD k []) t| *
                |convAt (z.getD l []) (atoms.getD l []) t| := by
            rw [pow_two, Finset.sum_mul_sum]
    calc ∑ t ∈ Finset.range T, (∑ k ∈ Finset.range K,
            convAt (z.getD k []) (atoms.getD k []) t) ^ 2
        ≤ ∑ t ∈ Finset.range T, ∑ k ∈ Finset.range K, ∑ l ∈ Finset.range K,
            |convAt (z.getD k []) (atoms.getD k []) t| *
              |convAt (z.getD l []) (atoms.getD l []) t| :=
          Finset.sum_le_sum fun t _ => hstep t
      _ = ∑ k ∈ Finset.range K, ∑ l ∈ Finset.range K, ∑ t ∈ Finset.range T,
            |convAt (z.getD k []) (atoms.getD k []) t| *
              |convAt (z.getD l []) (atoms.getD l []) t| := by
          rw [Finset.sum_comm]
          refine Finset.sum_congr rfl fun k _ => ?_
          rw [Finset.sum_comm]
  -- Step 3: Cauchy-Schwarz in t for each pair of atoms
  have h3 : ∀ k l, ∑ t ∈ Finset.range T,
      |convAt (z.getD k []) (atoms.getD k []) t| *
        |convAt (z.getD l []) (atoms.getD l []) t| ≤
      Real.sqrt (∑ t ∈ Finset.range T, convAt (z.getD k []) (atoms.getD k []) t ^ 2) *
        Real.sqrt (∑ t ∈ Finset.range T, convAt (z.getD l []) (atoms.getD l []) t ^ 2) := by
    intro k l
    have hcs := Finset.sum_mul_sq_le_sq_mul_sq (Finset.range T)
      (fun t => |convAt (z.getD k []) (atoms.getD k []) t|)
      (fun t => |convAt (z.getD l []) (atoms.getD l []) t|)
    simp only [sq_abs] at hcs
    have hnn : 0 ≤ ∑ t ∈ Finset.range T,
        |convAt (z.getD k []) (atoms.getD k []) t| *
          |convAt (z.getD l []) (atoms.getD l []) t| :=
      Finset.sum_nonneg fun t _ => mul_nonneg (abs_nonneg _) (abs_nonneg _)
    rw [← Real.sqrt_mul (hw k)]
    rw [Real.le_sqrt hnn (mul_nonneg (hw k) (hw l))]
    exact hcs
  -- Step 4: per-atom Young bound under the square root
  have h4 : ∀ k, Real.sqrt (∑ t ∈ Finset.range T,
      convAt (z.getD k []) (atoms.getD k []) t ^ 2) ≤
      norm1L (atoms.getD k []) *
        Real.sqrt (∑ j ∈ Finset.range T, eL (z.getD k []) j ^ 2) := by
    intro k
    have hy := young_conv (z.getD k []) (atoms.getD k []) T
    have := Real.sqrt_le_sqrt hy
    rwa [Real.sqrt_mul (sq_nonneg _), Real.sqrt_sq (norm1L_nonneg _)] at this
  -- Assemble
  set B := fun k => Real.sqrt (∑ t ∈ Finset.range T,
    convAt (z.getD k []) (atoms.getD k []) t ^ 2) with hB
  set C := fun k => Real.sqrt (∑ j ∈ Finset.range T, eL (z.getD k []) j ^ 2) with hC
  have h5 : ∑ k ∈ Finset.range K, ∑ l ∈ Finset.range K, B k * B l =
      (∑ k ∈ Finset.range K, B k) ^ 2 := by
    rw [pow_two, Finset.sum_mul_sum]
  have h6 : (∑ k ∈ Finset.range K, B k) ^ 2 ≤
      (∑ k ∈ Finset.range K, norm1L (atoms.getD k []) * C k) ^ 2 := by
    refine pow_le_pow_left (Finset.sum_nonneg fun k _ => Real.sqrt_nonneg _)
      (Finset.sum_le_sum fun k _ => h4 k) 2
  have h7 : (∑ k ∈ Finset.range K, norm1L (atoms.getD k []) * C k) ^ 2 ≤
      (∑ k ∈ Finset.range K, norm1L (atoms.getD k []) ^ 2) *
        ∑ k ∈ Finset.range K, C k ^ 2 := by
    exact Finset.sum_mul_sq_le_sq_mul_sq (Finset.range K) _ _
  have h8 : (∑ k ∈ Finset.range K, norm1L (atoms.getD k []) ^ 2) *
      (∑ k ∈ Finset.range K, C k ^ 2) ≤
      lipschitz_estimate atoms * ∑ k ∈ Finset.range K, C k ^ 2 := by
    refine mul_le_mul_of_nonneg_right ?_
      (Finset.sum_nonneg fun k _ => sq_nonneg _)
    unfold lipschitz_estimate
    exact sum_sq_le_sq_sum (Finset.range K) _ fun k _ => norm1L_nonneg _
  have h9 : ∑ k ∈ Finset.range K, C k ^ 2 ≤ dotT z z := by
    have hCk : ∀ k, C k ^ 2 = ∑ j ∈ Finset.range T, eL (z.getD k []) j ^ 2 := by
      intro k
      rw [hC]
      exact Real.sq_sqrt (Finset.sum_nonneg fun j _ => sq_nonneg _)
    have hd : dotT z z = ∑ k ∈ Finset.range K,
        ∑ j ∈ Finset.range W, eT z k j * eT z k j :=
      dotT_entries z z K W ⟨hz1, hz2⟩
    rw [hd]
    refine Finset.sum_le_sum fun k hk => ?_
    rw [hCk k]
    have hWlen : (z.getD k []).length = W := hz2 k (Finset.mem_range.mp hk)
    calc ∑ j ∈ Finset.range T, eL (z.getD k []) j ^ 2
        ≤ ∑ j ∈ Finset.range (z.getD k []).length, eL (z.getD k []) j ^ 2 :=
          sum_sq_range_le (z.getD k []) T
      _ = ∑ j ∈ Finset.range W, eT z k j * eT z k j := by
          rw [hWlen]
          refine Finset.sum_congr rfl fun j _ => ?_
          rw [pow_two]
          rfl
  have hLe : 0 ≤ lipschitz_estimate atoms := by
    unfold lipschitz_estimate
    positivity
  calc ∑ t ∈ Finset.range T,
        (∑ k ∈ Finset.range K, convAt (z.getD k []) (atoms.getD k []) t) ^ 2
      ≤ ∑ k ∈ Finset.range K, ∑ l ∈ Finset.range K, ∑ t ∈ Finset.range T,
          |convAt (z.getD k []) (atoms.getD k []) t| *
            |convAt (z.getD l []) (atoms.getD l []) t| := h2
    _ ≤ ∑ k ∈ Finset.range K, ∑ l ∈ Finset.range K, B k * B l := by
        refine Finset.sum_le_sum fun k _ => Finset.sum_le_sum fun l _ => h3 k l
    _ = (∑ k ∈ Finset.range K, B k) ^ 2 := h5
    _ ≤ (∑ k ∈ Finset.range K, norm1L (atoms.getD k []) * C k) ^ 2 := h6
    _ ≤ (∑ k ∈ Finset.range K, norm1L (atoms.getD k []) ^ 2) *
          ∑ k ∈ Finset.range K, C k ^ 2 := h7
    _ ≤ lipschitz_estimate atoms * ∑ k ∈ Finset.range K, C k ^ 2 := h8
    _ ≤ lipschitz_estimate atoms * dotT z z :=
        mul_le_mul_of_nonneg_left h9 hLe

end CSC

/-! ### Objective expansion -/

namespace CSC

theorem convAt_zeroCodes (K W k : ℕ) (a : List ℝ) (t : ℕ) :
    convAt ((zeroCodes K W : List (List ℝ)).getD k []) a t = 0 := by
  unfold convAt
  refine Finset.sum_eq_zero fun j _ => ?_
  have : eL ((zeroCodes K W : List (List ℝ)).getD k []) j = 0 := eT_zeroCodes K W k j
  rw [this, zero_mul]

theorem vSub_forward_zero (signal : List ℝ) (K W : ℕ) (atoms : List (List ℝ)) :
    vSub signal (forward signal.length (zeroCodes K W) atoms) = signal := by
  refine List.ext_getElem ?_ ?_
  · simp [vSub, List.length_zipWith, length_forward]
  · intro i h1 h2
    unfold vSub
    rw [List.getElem_zipWith]
    unfold forward
    rw [List.getElem_map, List.getElem_range]
    have hz : ∑ k ∈ Finset.range atoms.length,
        convAt ((zeroCodes K W : List (List ℝ)).getD k [])
          (atoms.getD k []) i = 0 :=
      Finset.sum_eq_zero fun k _ => convAt_zeroCodes K W k _ i
    rw [hz, sub_zero]

theorem norm1T_zeroCodes (K W : ℕ) : norm1T (zeroCodes K W : List (List ℝ)) = 0 := by
  unfold norm1T
  refine Finset.sum_eq_zero fun k _ => ?_
  unfold norm1L
  refine Finset.sum_eq_zero fun i _ => ?_
  have : eL ((zeroCodes K W : List (List ℝ)).getD k []) i = 0 := eT_zeroCodes K W k i
  rw [this, abs_zero]

theorem objective_zeroCodes (signal : List ℝ) (atoms : List (List ℝ))
    (penalty : ℝ) (K W : ℕ) :
    objective signal atoms penalty (zeroCodes K W) = sqNormL signal / 2 := by
  unfold objective
  rw [vSub_forward_zero signal K W atoms, norm1T_zeroCodes, mul_zero, add_zero]

theorem zipWith_zero_add (r : List ℝ) (W : ℕ) (hr : r.length = W) :
    List.zipWith (· + ·) (List.replicate W (0 : ℝ)) r = r := by
  refine List.ext_getElem ?_ ?_
  · simp [List.length_zipWith, hr]
  · intro i h1 h2
    rw [List.getElem_zipWith]
    rw [List.getElem_replicate, zero_add]

theorem tAdd_zeroCodes_left (z : List (List ℝ)) (K W : ℕ)
    (hz : TensorShape z K W) : tAdd (zeroCodes K W) z = z := by
  obtain ⟨h1, h2⟩ := hz
  refine List.ext_getElem ?_ ?_
  · simp [tAdd, List.length_zipWith, zeroCodes, h1]
  · intro k hk1 hk2
    unfold tAdd
    rw [List.getElem_zipWith]
    have hklt : k < K := by omega
    have hzc : ∀ hv : k < (zeroCodes K W : List (List ℝ)).length,
        (zeroCodes K W : List (List ℝ))[k] = List.replicate W 0 := by
      intro hv
      unfold zeroCodes
      rw [List.getElem_replicate]
    rw [hzc (by simp only [zeroCodes, List.length_replicate]; omega)]
    refine zipWith_zero_add _ W ?_
    rw [← List.getD_eq_getElem z ([] : List ℝ) hk2]
    exact h2 k hklt

theorem dotL_comm (a b : List ℝ) (h : a.length = b.length) :
    dotL a b = dotL b a := by
  unfold dotL
  rw [h]
  exact Finset.sum_congr rfl fun i _ => mul_comm _ _

theorem sqNormL_vSub (x v : List ℝ) (h : v.length = x.length) :
    sqNormL (vSub x v) = sqNormL x - 2 * dotL x v + sqNormL v := by
  unfold sqNormL dotL
  have hlen : (vSub x v).length = x.length := by
    simp [vSub, List.length_zipWith, h]
  rw [hlen, h]
  rw [Finset.mul_sum, ← Finset.sum_sub_distrib, ← Finset.sum_add_distrib]
  refine Finset.sum_congr rfl fun i hi => ?_
  have hix : i < x.length := Finset.mem_range.mp hi
  have hiv : i < v.length := by omega
  rw [eL_vSub x v i hix hiv]
  ring

/-- Expansion of the objective through the adjoint identity. -/
theorem objective_expand (signal : List ℝ) (atoms z : List (List ℝ))
    (penalty : ℝ) (L : ℕ)
    (hz : z.length = atoms.length)
    (hrow : ∀ k, k < atoms.length →
      (z.getD k []).length = signal.length - (atoms.getD k []).length + 1)
    (ha : ∀ k, k < atoms.length →
      1 ≤ (atoms.getD k []).length ∧ (atoms.getD k []).length ≤ signal.length) :
    objective signal atoms penalty z =
      sqNormL signal / 2 - dotT z (adjoint signal atoms) +
        sqNormL (forward signal.length z atoms) / 2 + penalty * norm1T z := by
  unfold objective
  rw [sqNormL_vSub signal (forward signal.length z atoms) (length_forward _ _ _)]
  rw [dotL_comm signal (forward signal.length z atoms) (length_forward _ _ _).symm]
  rw [dot_forward_adjoint signal.length z atoms signal hz hrow ha rfl]
  ring

end CSC

/-! ### Claim C4 (amended): the first solver step never increases the
objective -/

namespace CSC

/-- C4 (amended): when the step size respects the estimated Lipschitz
bound (`0 < step`, `step · lipschitz_estimate ≤ 1`), the first solver
iteration from the default zero initialization does not increase the
objective `½‖signal − forward(z)‖² + penalty·‖z‖₁`.  Later, momentum steps
can increase the objective (see the accompanying counterexample), so the
claimed monotonicity of the whole iterate sequence fails. -/
theorem fista_first_step_no_increase (atoms : List (List ℝ)) (signal : List ℝ)
    (stepSize penalty : ℝ) (positive : Bool) (L : ℕ)
    (hL : ∀ d ∈ atoms, d.length = L) (hL1 : 1 ≤ L) (hLT : L ≤ signal.length)
    (hp : 0 ≤ penalty) (hs : 0 < stepSize)
    (hsL : stepSize * lipschitz_estimate atoms ≤ 1) :
    objective signal atoms penalty
      ((fistaSeq atoms signal stepSize penalty positive
        (initState atoms.length (signal.length - L + 1) none) 1).z) ≤
    objective signal atoms penalty
      ((fistaSeq atoms signal stepSize penalty positive
        (initState atoms.length (signal.length - L + 1) none) 0).z) := by
  set T := signal.length with hT
  set K := atoms.length with hKdef
  set W := T - L + 1 with hW
  have hL2 : ∀ k, k < K → (atoms.getD k []).length = L := by
    intro k hk
    rw [List.getD_eq_getElem _ _ hk]
    exact hL _ (List.getElem_mem hk)
  set g := adjoint signal atoms with hg
  have hgshape : TensorShape g K W := by
    have := shape_adjoint signal atoms L hL2
    rw [← hg] at this
    exact this
  have hsmulshape : TensorShape (tSmul stepSize g) K W := shape_tSmul _ _ _ _ hgshape
  set z1 := prox (tSmul stepSize g) (stepSize * penalty) positive with hz1def
  have hz1shape : TensorShape z1 K W := shape_prox _ _ _ _ _ hsmulshape
  -- identify the first iterate
  have hiter : (fistaSeq atoms signal stepSize penalty positive
      (initState K W none) 1).z = z1 := by
    have hgs : gradStep atoms signal stepSize (zeroCodes K W) = tSmul stepSize g := by
      unfold gradStep
      rw [vSub_forward_zero signal K W atoms]
      exact tAdd_zeroCodes_left _ K W hsmulshape
    show (fistaStep atoms signal stepSize penalty positive (initState K W none)).z = z1
    unfold fistaStep
    show prox (gradStep atoms signal stepSize
      ((initState K W none).y)) (stepSize * penalty) positive = z1
    have hy0 : (initState K W none).y = zeroCodes K W := rfl
    rw [hy0, hgs]
  have hinit : (fistaSeq atoms signal stepSize penalty positive
      (initState K W none) 0).z = zeroCodes K W := rfl
  rw [hiter, hinit, objective_zeroCodes]
  -- expand the objective at z1
  have hexp : objective signal atoms penalty z1 =
      sqNormL signal / 2 - dotT z1 g + sqNormL (forward T z1 atoms) / 2 +
        penalty * norm1T z1 := by
    refine objective_expand signal atoms z1 penalty L hz1shape.1 ?_ ?_
    · intro k hk
      rw [hz1shape.2 k hk, hL2 k hk]
    · intro k hk
      rw [hL2 k hk]
      exact ⟨hL1, hLT⟩
  rw [hexp]
  -- entry description of z1
  have hentry : ∀ k j, k < K → j < W →
      eT z1 k j = softScalar (stepSize * eT g k j) (stepSize * penalty) positive := by
    intro k j hk hj
    rw [hz1def]
    rw [eT_prox _ _ _ k j (by rw [hsmulshape.1]; exact hk)
      (by rw [hsmulshape.2 k hk]; exact hj)]
    congr 1
    exact eT_tSmul stepSize g k j (by rw [hgshape.1]; exact hk)
      (by rw [hgshape.2 k hk]; exact hj)
  -- the summed prox inequality
  have hτ : 0 ≤ stepSize * penalty := mul_nonneg (le_of_lt hs) hp
  have hkey : dotT z1 z1 / 2 + (stepSize * penalty) * norm1T z1 ≤
      stepSize * dotT z1 g := by
    rw [dotT_entries z1 z1 K W hz1shape, dotT_entries z1 g K W hz1shape,
      norm1T_entries z1 K W hz1shape]
    have hper : ∀ k ∈ Finset.range K, ∀ j ∈ Finset.range W,
        eT z1 k j * eT z1 k j / 2 + (stepSize * penalty) * |eT z1 k j| ≤
          stepSize * (eT z1 k j * eT g k j) := by
      intro k hk j hj
      have hkK := Finset.mem_range.mp hk
      have hjW := Finset.mem_range.mp hj
      have hety := hentry k j hkK hjW
      have hineq := softScalar_ineq (stepSize * eT g k j) (stepSize * penalty) hτ positive
      rw [← hety] at hineq
      nlinarith [hineq]
    calc (∑ k ∈ Finset.range K, ∑ j ∈ Finset.range W, eT z1 k j * eT z1 k j) / 2 +
          (stepSize * penalty) * ∑ k ∈ Finset.range K, ∑ j ∈ Finset.range W, |eT z1 k j|
        = ∑ k ∈ Finset.range K, ∑ j ∈ Finset.range W,
            (eT z1 k j * eT z1 k j / 2 + (stepSize * penalty) * |eT z1 k j|) := by
          rw [Finset.sum_div, Finset.mul_sum, ← Finset.sum_add_distrib]
          refine Finset.sum_congr rfl fun k _ => ?_
          rw [Finset.sum_div, Finset.mul_sum, ← Finset.sum_add_distrib]
      _ ≤ ∑ k ∈ Finset.range K, ∑ j ∈ Finset.range W,
            stepSize * (eT z1 k j * eT g k j) := by
          refine Finset.sum_le_sum fun k hk => Finset.sum_le_sum fun j hj => ?_
          exact hper k hk j hj
      _ = stepSize * ∑ k ∈ Finset.range K, ∑ j ∈ Finset.range W,
            eT z1 k j * eT g k j := by
          rw [Finset.mul_sum]
          refine Finset.sum_congr rfl fun k _ => ?_
          rw [Finset.mul_sum]
  -- operator norm bound
  have hfwd : sqNormL (forward T z1 atoms) ≤ lipschitz_estimate atoms * dotT z1 z1 :=
    forward_sq_le T z1 atoms W hz1shape
  have hS2 : 0 ≤ dotT z1 z1 := dotT_self_nonneg z1
  have hscale : stepSize * lipschitz_estimate atoms * dotT z1 z1 ≤ dotT z1 z1 := by
    calc stepSize * lipschitz_estimate atoms * dotT z1 z1 ≤ 1 * dotT z1 z1 :=
        mul_le_mul_of_nonneg_right hsL hS2
      _ = dotT z1 z1 := one_mul _
  have hmul : stepSize * (sqNormL (forward T z1 atoms) / 2 + penalty * norm1T z1) ≤
      stepSize * dotT z1 g := by
    have hb : stepSize * sqNormL (forward T z1 atoms) ≤
        stepSize * (lipschitz_estimate atoms * dotT z1 z1) :=
      mul_le_mul_of_nonneg_left hfwd (le_of_lt hs)
    nlinarith [hkey, hb, hscale]
  have hfinal : sqNormL (forward T z1 atoms) / 2 + penalty * norm1T z1 ≤ dotT z1 g :=
    le_of_mul_le_mul_left (by linarith [hmul]) hs
  linarith [hfinal]

/-- C4 witness for the amended claim: a concrete one-atom configuration. -/
theorem fista_first_step_no_increase_witness :
    objective [1] [[1]] 1
      ((fistaSeq [[1]] [1] 1 1 true (initState 1 1 none) 1).z) ≤
    objective [1] [[1]] 1
      ((fistaSeq [[1]] [1] 1 1 true (initState 1 1 none) 0).z) := by
  have h := fista_first_step_no_increase [[1]] [1] 1 1 true 1
    (by intro d hd; rw [List.mem_singleton] at hd; rw [hd]; rfl)
    (by norm_num) (by norm_num) (by norm_num) (by norm_num)
    (by norm_num [lipschitz_estimate, norm1L, eL, Finset.sum_range_succ])
  simpa using h

end CSC

/-! ### Claim C4 (counterexample): a later FISTA step increases the
objective -/

namespace CSC

theorem ce_fwd (b : ℝ) : forward 3 [[b, b]] [[(1 : ℝ), 1]] = [b, 2 * b, b] := by
  show (List.range 3).map _ = _
  rw [show List.range 3 = [0, 1, 2] from rfl]
  simp [convAt, eL, Finset.sum_range_succ]
  ring_nf

theorem ce_adj (b : ℝ) : adjoint [100 - b, 200 - 2 * b, 100 - b] [[(1 : ℝ), 1]] =
    [[300 - 3 * b, 300 - 3 * b]] := by
  unfold adjoint
  simp only [List.map, List.length_cons, List.length_nil]
  norm_num
  constructor <;> (simp [corrAt, eL, Finset.sum_range_succ]; ring)

theorem ce_vsub (b : ℝ) :
    vSub [100, 200, 100] (forward 3 [[b, b]] [[(1 : ℝ), 1]]) =
      [100 - b, 200 - 2 * b, 100 - b] := by
  rw [ce_fwd]
  simp [vSub]

theorem ce_grad (b : ℝ) :
    gradStep [[(1 : ℝ), 1]] [100, 200, 100] (1 / 4) [[b, b]] =
      [[b / 4 + 75, b / 4 + 75]] := by
  unfold gradStep
  rw [show (List.length [(100 : ℝ), 200, 100]) = 3 from rfl]
  rw [ce_vsub, ce_adj]
  simp [tAdd, tSmul]
  ring

theorem ce_prox (b : ℝ) (hb : 0 ≤ b) :
    prox [[b / 4 + 75, b / 4 + 75]] (1 / 4 * (3 / 10)) true =
      [[b / 4 + 2997 / 40, b / 4 + 2997 / 40]] := by
  simp [prox, softScalar]
  rw [max_eq_left (by nlinarith)]
  ring

theorem ce_step (a b t : ℝ) (hb : 0 ≤ b) :
    fistaStep [[(1 : ℝ), 1]] [100, 200, 100] (1 / 4) (3 / 10) true
      ⟨[[a, a]], [[b, b]], t⟩ =
      ⟨[[b / 4 + 2997 / 40, b / 4 + 2997 / 40]],
       [[b / 4 + 2997 / 40 + (t - 1) / tNext t * (b / 4 + 2997 / 40 - a),
         b / 4 + 2997 / 40 + (t - 1) / tNext t * (b / 4 + 2997 / 40 - a)]],
       tNext t⟩ := by
  unfold fistaStep
  dsimp only
  rw [ce_grad, ce_prox b hb]
  simp only [SolverState.mk.injEq, and_true, true_and]
  simp [tAdd, tSub, tSmul]
  try ring

theorem ce_objective (c : ℝ) (hc : 0 ≤ c) :
    objective [100, 200, 100] [[(1 : ℝ), 1]] (3 / 10) [[c, c]] =
      3 * (100 - c) ^ 2 + 3 / 5 * c := by
  unfold objective
  rw [show (List.length [(100 : ℝ), 200, 100]) = 3 from rfl]
  rw [ce_vsub]
  unfold sqNormL dotL norm1T norm1L
  simp [eL, Finset.sum_range_succ, abs_of_nonneg hc]
  ring

end CSC

namespace CSC

theorem tNext_one : tNext 1 = (1 + Real.sqrt 5) / 2 := by
  unfold tNext
  norm_num

theorem sqrt5_bounds : (2.236 : ℝ) < Real.sqrt 5 ∧ Real.sqrt 5 < 2.2361 := by
  constructor
  · exact (Real.lt_sqrt (by norm_num)).mpr (by norm_num)
  · exact (Real.sqrt_lt' (by norm_num)).mpr (by norm_num)

theorem tNext_bounds (t a b c d : ℝ) (h0 : 0 ≤ a) (h1 : a < t) (h2 : t < b)
    (hc0 : 0 ≤ c) (hc : c ^ 2 < 1 + 4 * a ^ 2) (hd0 : 0 < d)
    (hd : 1 + 4 * b ^ 2 < d ^ 2) :
    (1 + c) / 2 < tNext t ∧ tNext t < (1 + d) / 2 := by
  unfold tNext
  have hXlo : c ^ 2 < 1 + 4 * t ^ 2 := by nlinarith
  have hXhi : 1 + 4 * t ^ 2 < d ^ 2 := by nlinarith
  have hlo : c < Real.sqrt (1 + 4 * t ^ 2) := (Real.lt_sqrt hc0).mpr hXlo
  have hhi : Real.sqrt (1 + 4 * t ^ 2) < d := (Real.sqrt_lt' hd0).mpr hXhi
  constructor <;> linarith

theorem fistaSeq_zero (atoms : List (List ℝ)) (signal : List ℝ)
    (stepSize penalty : ℝ) (positive : Bool) (init : SolverState) :
    fistaSeq atoms signal stepSize penalty positive init 0 = init := rfl

theorem fistaSeq_succ (atoms : List (List ℝ)) (signal : List ℝ)
    (stepSize penalty : ℝ) (positive : Bool) (init : SolverState) (n : ℕ) :
    fistaSeq atoms signal stepSize penalty positive init (n + 1) =
      fistaStep atoms signal stepSize penalty positive
        (fistaSeq atoms signal stepSize penalty positive init n) := rfl

theorem ce_lip : lipschitz_estimate [[(1 : ℝ), 1]] = 4 := by
  unfold lipschitz_estimate norm1L
  simp [eL, Finset.sum_range_succ]
  norm_num


theorem ce_y2_nonneg (M2 : ℝ) (h : (0.2817 : ℝ) < M2) :
    (0 : ℝ) ≤ 2997 / 32 + M2 * (2997 / 160) := by
  nlinarith

theorem ce_Z3_nonneg (M2 : ℝ) (h : (0.2817 : ℝ) < M2) :
    (0 : ℝ) ≤ (2997 / 32 + M2 * (2997 / 160)) / 4 + 2997 / 40 := by
  nlinarith

/-- Interval bound for the third code value. -/
theorem ce_Z3_bounds (M2 : ℝ) (h2lo : (0.2817 : ℝ) < M2) (h2hi : M2 < 0.2818) :
    (99.6582 : ℝ) < (2997 / 32 + M2 * (2997 / 160)) / 4 + 2997 / 40 ∧
    (2997 / 32 + M2 * (2997 / 160)) / 4 + 2997 / 40 < 99.6587 := by
  constructor <;> nlinarith

/-- Interval bound for the third momentum value. -/
theorem ce_Y3_bounds (M2 M3 : ℝ) (h2lo : (0.2817 : ℝ) < M2) (h2hi : M2 < 0.2818)
    (h3lo : (0.4339 : ℝ) < M3) (h3hi : M3 < 0.4341) :
    (102.2624 : ℝ) < (2997 / 32 + M2 * (2997 / 160)) / 4 + 2997 / 40 +
      M3 * ((2997 / 32 + M2 * (2997 / 160)) / 4 + 2997 / 40 - 2997 / 32) ∧
    (2997 / 32 + M2 * (2997 / 160)) / 4 + 2997 / 40 +
      M3 * ((2997 / 32 + M2 * (2997 / 160)) / 4 + 2997 / 40 - 2997 / 32) < 102.2644 := by
  obtain ⟨hz1, hz2⟩ := ce_Z3_bounds M2 h2lo h2hi
  constructor <;> nlinarith

/-- Interval bound for the fourth code value. -/
theorem ce_Z4_bounds (M2 M3 : ℝ) (h2lo : (0.2817 : ℝ) < M2) (h2hi : M2 < 0.2818)
    (h3lo : (0.4339 : ℝ) < M3) (h3hi : M3 < 0.4341) :
    (100.4906 : ℝ) < ((2997 / 32 + M2 * (2997 / 160)) / 4 + 2997 / 40 +
      M3 * ((2997 / 32 + M2 * (2997 / 160)) / 4 + 2997 / 40 - 2997 / 32)) / 4 +
        2997 / 40 ∧
    ((2997 / 32 + M2 * (2997 / 160)) / 4 + 2997 / 40 +
      M3 * ((2997 / 32 + M2 * (2997 / 160)) / 4 + 2997 / 40 - 2997 / 32)) / 4 +
        2997 / 40 < 100.4911 := by
  obtain ⟨hy1, hy2⟩ := ce_Y3_bounds M2 M3 h2lo h2hi h3lo h3hi
  constructor <;> linarith

/-- The decisive numeric estimate: a code value near 99.66 followed by one
near 100.49 yields a strictly larger objective. -/
theorem ce_key (z3 z4 : ℝ) (h3lo : (99.6582 : ℝ) < z3) (h3hi : z3 < 99.6587)
    (h4lo : (100.4906 : ℝ) < z4) (h4hi : z4 < 100.4911) :
    3 * (100 - z3) ^ 2 + 3 / 5 * z3 < 3 * (100 - z4) ^ 2 + 3 / 5 * z4 := by
  nlinarith

theorem ce_y3_nonneg (M2 M3 : ℝ) (h2lo : (0.2817 : ℝ) < M2) (h2hi : M2 < 0.2818)
    (h3lo : (0.4339 : ℝ) < M3) (h3hi : M3 < 0.4341) :
    (0 : ℝ) ≤ (2997 / 32 + M2 * (2997 / 160)) / 4 + 2997 / 40 +
      M3 * ((2997 / 32 + M2 * (2997 / 160)) / 4 + 2997 / 40 - 2997 / 32) := by
  obtain ⟨hy1, hy2⟩ := ce_Y3_bounds M2 M3 h2lo h2hi h3lo h3hi
  linarith

theorem ce_Z4_nonneg (M2 M3 : ℝ) (h2lo : (0.2817 : ℝ) < M2) (h2hi : M2 < 0.2818)
    (h3lo : (0.4339 : ℝ) < M3) (h3hi : M3 < 0.4341) :
    (0 : ℝ) ≤ ((2997 / 32 + M2 * (2997 / 160)) / 4 + 2997 / 40 +
      M3 * ((2997 / 32 + M2 * (2997 / 160)) / 4 + 2997 / 40 - 2997 / 32)) / 4 +
        2997 / 40 := by
  obtain ⟨hz1, hz2⟩ := ce_Z4_bounds M2 M3 h2lo h2hi h3lo h3hi
  linarith

/-- C4 counterexample: with the step size `1/lipschitz_estimate` that
respects the estimated Lipschitz bound, the objective value at the
solver's fourth iterate exceeds the one at its third iterate for the
dictionary `[[1, 1]]`, the signal `[100, 200, 100]` and penalty `3/10` in
non-negative mode — the momentum extrapolation overshoots, so the
objective sequence along the FISTA iterates is not non-increasing. -/
theorem fista_objective_can_increase :
    objective [100, 200, 100] [[(1 : ℝ), 1]] (3 / 10)
      ((fistaSeq [[(1 : ℝ), 1]] [100, 200, 100]
        (1 / lipschitz_estimate [[(1 : ℝ), 1]]) (3 / 10) true
        (initState 1 2 none) 3).z) <
    objective [100, 200, 100] [[(1 : ℝ), 1]] (3 / 10)
      ((fistaSeq [[(1 : ℝ), 1]] [100, 200, 100]
        (1 / lipschitz_estimate [[(1 : ℝ), 1]]) (3 / 10) true
        (initState 1 2 none) 4).z) := by
  rw [ce_lip]
  obtain ⟨h5lo, h5hi⟩ := sqrt5_bounds
  have ht1lo : (1.618 : ℝ) < tNext 1 := by rw [tNext_one]; linarith
  have ht1hi : tNext 1 < 1.61805 := by rw [tNext_one]; linarith
  obtain ⟨ht2lo, ht2hi⟩ := tNext_bounds (tNext 1) 1.618 1.61805 3.3869 3.3872
    (by norm_num) ht1lo ht1hi (by norm_num) (by norm_num) (by norm_num) (by norm_num)
  have ht2lo2 : (2.19345 : ℝ) < tNext (tNext 1) := by linarith
  have ht2hi2 : tNext (tNext 1) < 2.1936 := by linarith
  obtain ⟨ht3lo, ht3hi⟩ := tNext_bounds (tNext (tNext 1)) 2.19345 2.1936 4.4994 4.4998
    (by norm_num) ht2lo2 ht2hi2 (by norm_num) (by norm_num) (by norm_num) (by norm_num)
  have ht3lo2 : (2.7497 : ℝ) < tNext (tNext (tNext 1)) := by linarith
  have ht3hi2 : tNext (tNext (tNext 1)) < 2.7499 := by linarith
  have ht2pos : (0 : ℝ) < tNext (tNext 1) := by linarith
  have ht3pos : (0 : ℝ) < tNext (tNext (tNext 1)) := by linarith
  have hm2lo : (0.2817 : ℝ) < (tNext 1 - 1) / tNext (tNext 1) := by
    rw [lt_div_iff ht2pos]
    nlinarith
  have hm2hi : (tNext 1 - 1) / tNext (tNext 1) < 0.2818 := by
    rw [div_lt_iff ht2pos]
    nlinarith
  have hm3lo : (0.4339 : ℝ) < (tNext (tNext 1) - 1) / tNext (tNext (tNext 1)) := by
    rw [lt_div_iff ht3pos]
    nlinarith
  have hm3hi : (tNext (tNext 1) - 1) / tNext (tNext (tNext 1)) < 0.4341 := by
    rw [div_lt_iff ht3pos]
    nlinarith
  have e1 : fistaSeq [[(1 : ℝ), 1]] [100, 200, 100] (1 / 4) (3 / 10) true
      (initState 1 2 none) 1 =
      ⟨[[2997 / 40, 2997 / 40]], [[2997 / 40, 2997 / 40]], tNext 1⟩ := by
    have h1 : fistaSeq [[(1 : ℝ), 1]] [100, 200, 100] (1 / 4) (3 / 10) true
        (initState 1 2 none) 1 =
        fistaStep [[(1 : ℝ), 1]] [100, 200, 100] (1 / 4) (3 / 10) true
          (initState 1 2 none) :=
      fistaSeq_succ _ _ _ _ _ _ 0
    rw [h1]
    rw [show (initState 1 2 none : SolverState) = ⟨[[(0 : ℝ), 0]], [[0, 0]], 1⟩ from rfl]
    rw [ce_step 0 0 1 le_rfl]
    simp only [SolverState.mk.injEq]
    norm_num
  have e2 : fistaSeq [[(1 : ℝ), 1]] [100, 200, 100] (1 / 4) (3 / 10) true
      (initState 1 2 none) 2 =
      ⟨[[2997 / 32, 2997 / 32]],
       [[2997 / 32 + (tNext 1 - 1) / tNext (tNext 1) * (2997 / 160),
         2997 / 32 + (tNext 1 - 1) / tNext (tNext 1) * (2997 / 160)]],
       tNext (tNext 1)⟩ := by
    have h2 : fistaSeq [[(1 : ℝ), 1]] [100, 200, 100] (1 / 4) (3 / 10) true
        (initState 1 2 none) 2 =
        fistaStep [[(1 : ℝ), 1]] [100, 200, 100] (1 / 4) (3 / 10) true
          (fistaSeq [[(1 : ℝ), 1]] [100, 200, 100] (1 / 4) (3 / 10) true
            (initState 1 2 none) 1) :=
      fistaSeq_succ _ _ _ _ _ _ 1
    rw [h2, e1]
    rw [ce_step (2997 / 40) (2997 / 40) (tNext 1) (by norm_num)]
    simp only [SolverState.mk.injEq]
    refine ⟨by norm_num, ?_, trivial⟩
    have harith : (2997 : ℝ) / 40 / 4 + 2997 / 40 = 2997 / 32 := by norm_num
    rw [harith]
    have harith2 : (2997 : ℝ) / 32 - 2997 / 40 = 2997 / 160 := by norm_num
    rw [harith2]
  have e3 : fistaSeq [[(1 : ℝ), 1]] [100, 200, 100] (1 / 4) (3 / 10) true
      (initState 1 2 none) 3 =
      ⟨[[(2997 / 32 + (tNext 1 - 1) / tNext (tNext 1) * (2997 / 160)) / 4 + 2997 / 40,
         (2997 / 32 + (tNext 1 - 1) / tNext (tNext 1) * (2997 / 160)) / 4 + 2997 / 40]],
       [[(2997 / 32 + (tNext 1 - 1) / tNext (tNext 1) * (2997 / 160)) / 4 + 2997 / 40 +
           (tNext (tNext 1) - 1) / tNext (tNext (tNext 1)) *
             ((2997 / 32 + (tNext 1 - 1) / tNext (tNext 1) * (2997 / 160)) / 4 +
               2997 / 40 - 2997 / 32),
         (2997 / 32 + (tNext 1 - 1) / tNext (tNext 1) * (2997 / 160)) / 4 + 2997 / 40 +
           (tNext (tNext 1) - 1) / tNext (tNext (tNext 1)) *
             ((2997 / 32 + (tNext 1 - 1) / tNext (tNext 1) * (2997 / 160)) / 4 +
               2997 / 40 - 2997 / 32)]],
       tNext (tNext (tNext 1))⟩ := by
    have h3 : fistaSeq [[(1 : ℝ), 1]] [100, 200, 100] (1 / 4) (3 / 10) true
        (initState 1 2 none) 3 =
        fistaStep [[(1 : ℝ), 1]] [100, 200, 100] (1 / 4) (3 / 10) true
          (fistaSeq [[(1 : ℝ), 1]] [100, 200, 100] (1 / 4) (3 / 10) true
            (initState 1 2 none) 2) :=
      fistaSeq_succ _ _ _ _ _ _ 2
    rw [h3, e2]
    rw [ce_step (2997 / 32)
      (2997 / 32 + (tNext 1 - 1) / tNext (tNext 1) * (2997 / 160))
      (tNext (tNext 1)) (ce_y2_nonneg _ hm2lo)]
  have e4 : fistaSeq [[(1 : ℝ), 1]] [100, 200, 100] (1 / 4) (3 / 10) true
      (initState 1 2 none) 4 =
      ⟨[[((2997 / 32 + (tNext 1 - 1) / tNext (tNext 1) * (2997 / 160)) / 4 + 2997 / 40 +
           (tNext (tNext 1) - 1) / tNext (tNext (tNext 1)) *
             ((2997 / 32 + (tNext 1 - 1) / tNext (tNext 1) * (2997 / 160)) / 4 +
               2997 / 40 - 2997 / 32)) / 4 + 2997 / 40,
         ((2997 / 32 + (tNext 1 - 1) / tNext (tNext 1) * (2997 / 160)) / 4 + 2997 / 40 +
           (tNext (tNext 1) - 1) / tNext (tNext (tNext 1)) *
             ((2997 / 32 + (tNext 1 - 1) / tNext (tNext 1) * (2997 / 160)) / 4 +
               2997 / 40 - 2997 / 32)) / 4 + 2997 / 40]],
       [[((2997 / 32 + (tNext 1 - 1) / tNext (tNext 1) * (2997 / 160)) / 4 + 2997 / 40 +
           (tNext (tNext 1) - 1) / tNext (tNext (tNext 1)) *
             ((2997 / 32 + (tNext 1 - 1) / tNext (tNext 1) * (2997 / 160)) / 4 +
               2997 / 40 - 2997 / 32)) / 4 + 2997 / 40 +
           (tNext (tNext (tNext 1)) - 1) / tNext (tNext (tNext (tNext 1))) *
             (((2997 / 32 + (tNext 1 - 1) / tNext (tNext 1) * (2997 / 160)) / 4 +
               2997 / 40 +
           (tNext (tNext 1) - 1) / tNext (tNext (tNext 1)) *
             ((2997 / 32 + (tNext 1 - 1) / tNext (tNext 1) * (2997 / 160)) / 4 +
               2997 / 40 - 2997 / 32)) / 4 + 2997 / 40 -
             ((2997 / 32 + (tNext 1 - 1) / tNext (tNext 1) * (2997 / 160)) / 4 +
               2997 / 40)),
         ((2997 / 32 + (tNext 1 - 1) / tNext (tNext 1) * (2997 / 160)) / 4 + 2997 / 40 +
           (tNext (tNext 1) - 1) / tNext (tNext (tNext 1)) *
             ((2997 / 32 + (tNext 1 - 1) / tNext (tNext 1) * (2997 / 160)) / 4 +
               2997 / 40 - 2997 / 32)) / 4 + 2997 / 40 +
           (tNext (tNext (tNext 1)) - 1) / tNext (tNext (tNext (tNext 1))) *
             (((2997 / 32 + (tNext 1 - 1) / tNext (tNext 1) * (2997 / 160)) / 4 +
               2997 / 40 +
           (tNext (tNext 1) - 1) / tNext (tNext (tNext 1)) *
             ((2997 / 32 + (tNext 1 - 1) / tNext (tNext 1) * (2997 / 160)) / 4 +
               2997 / 40 - 2997 / 32)) / 4 + 2997 / 40 -
             ((2997 / 32 + (tNext 1 - 1) / tNext (tNext 1) * (2997 / 160)) / 4 +
               2997 / 40))]],
       tNext (tNext (tNext (tNext 1)))⟩ := by
    have h4 : fistaSeq [[(1 : ℝ), 1]] [100, 200, 100] (1 / 4) (3 / 10) true
        (initState 1 2 none) 4 =
        fistaStep [[(1 : ℝ), 1]] [100, 200, 100] (1 / 4) (3 / 10) true
          (fistaSeq [[(1 : ℝ), 1]] [100, 200, 100] (1 / 4) (3 / 10) true
            (initState 1 2 none) 3) :=
      fistaSeq_succ _ _ _ _ _ _ 3
    rw [h4, e3]
    rw [ce_step ((2997 / 32 + (tNext 1 - 1) / tNext (tNext 1) * (2997 / 160)) / 4 +
        2997 / 40)
      ((2997 / 32 + (tNext 1 - 1) / tNext (tNext 1) * (2997 / 160)) / 4 + 2997 / 40 +
        (tNext (tNext 1) - 1) / tNext (tNext (tNext 1)) *
          ((2997 / 32 + (tNext 1 - 1) / tNext (tNext 1) * (2997 / 160)) / 4 +
            2997 / 40 - 2997 / 32))
      (tNext (tNext (tNext 1)))
      (ce_y3_nonneg _ _ hm2lo hm2hi hm3lo hm3hi)]
  have hz3 : (fistaSeq [[(1 : ℝ), 1]] [100, 200, 100] (1 / 4) (3 / 10) true
      (initState 1 2 none) 3).z =
      [[(2997 / 32 + (tNext 1 - 1) / tNext (tNext 1) * (2997 / 160)) / 4 + 2997 / 40,
        (2997 / 32 + (tNext 1 - 1) / tNext (tNext 1) * (2997 / 160)) / 4 + 2997 / 40]] := by
    rw [e3]
  have hz4 : (fistaSeq [[(1 : ℝ), 1]] [100, 200, 100] (1 / 4) (3 / 10) true
      (initState 1 2 none) 4).z =
      [[((2997 / 32 + (tNext 1 - 1) / tNext (tNext 1) * (2997 / 160)) / 4 + 2997 / 40 +
           (tNext (tNext 1) - 1) / tNext (tNext (tNext 1)) *
             ((2997 / 32 + (tNext 1 - 1) / tNext (tNext 1) * (2997 / 160)) / 4 +
               2997 / 40 - 2997 / 32)) / 4 + 2997 / 40,
        ((2997 / 32 + (tNext 1 - 1) / tNext (tNext 1) * (2997 / 160)) / 4 + 2997 / 40 +
           (tNext (tNext 1) - 1) / tNext (tNext (tNext 1)) *
             ((2997 / 32 + (tNext 1 - 1) / tNext (tNext 1) * (2997 / 160)) / 4 +
               2997 / 40 - 2997 / 32)) / 4 + 2997 / 40]] := by
    rw [e4]
  rw [hz3, hz4]
  rw [ce_objective _ (ce_Z3_nonneg _ hm2lo),
    ce_objective _ (ce_Z4_nonneg _ _ hm2lo hm2hi hm3lo hm3hi)]
  obtain ⟨hb1, hb2⟩ := ce_Z3_bounds _ hm2lo hm2hi
  obtain ⟨hb3, hb4⟩ := ce_Z4_bounds _ _ hm2lo hm2hi hm3lo hm3hi
  exact ce_key _ _ hb1 hb2 hb3 hb4

end CSC
